import Mathlib

/-!
# sstring: a growable byte buffer with length and capacity

A shallow embedding of `include/sstring.h`.

* A buffer handle is modelled by the record `Sstr`: the two `size_t` header words
  (`cap`, `len`) and the payload bytes of the allocation (`data`).  The header words are
  ordinary fields, the payload is a list whose length is the number of payload bytes that
  the allocator really handed out.
* A byte is a C `char` value, modelled as an integer; the zero byte is `0` and the order on
  bytes is the order of `char` values.
* `size_t` arithmetic is arithmetic modulo `2^64` (`sz_add`, `sz_sub`).
* Every read or write of the payload goes through `load` / `store`; an access outside the
  allocation is undefined behaviour in C and is modelled by the result `none`.
* The allocator is a parameter (`Heap`): it decides which requests succeed and which bytes
  newly obtained storage holds.
* Functions that return a status code and update `*s` return the pair of the code and the
  new buffer.
-/

namespace Sstring

/-! ## Machine arithmetic -/

/-- Number of values of a 64-bit size word. -/
def SIZE_MOD : Nat := 18446744073709551616

/-- Sum of two size words, wrapping at 64 bits. -/
def sz_add (a b : Nat) : Nat := (a + b) % SIZE_MOD

/-- Difference of two size words, wrapping at 64 bits. -/
def sz_sub (a b : Nat) : Nat := (a % SIZE_MOD + (SIZE_MOD - b % SIZE_MOD)) % SIZE_MOD

/-- Rounding to a power of two by bit smearing, as in the source function of that name. -/
def pow2 (n : Nat) : Nat :=
  let n := sz_sub n 1
  let n := n ||| (n >>> 1)
  let n := n ||| (n >>> 2)
  let n := n ||| (n >>> 4)
  let n := n ||| (n >>> 8)
  let n := n ||| (n >>> 16)
  let n := n ||| (n >>> 32)
  sz_add n 1

/-! ## Buffers, memory and the allocator -/

/-- A buffer: the capacity word, the length word and the payload bytes of its allocation. -/
structure Sstr where
  cap : Nat
  len : Nat
  data : List Int
deriving DecidableEq

/-- The allocator: which byte counts it grants, and the indeterminate value that payload
byte number i has in storage it newly hands out. -/
structure Heap where
  grant : Nat → Bool
  junk : Nat → Int

/-- Read of payload byte i; none when i is outside the allocation. -/
def load (m : List Int) (i : Nat) : Option Int := m[i]?

/-- Write of payload byte i; none when i is outside the allocation. -/
def store (m : List Int) (i : Nat) (v : Int) : Option (List Int) :=
  if i < m.length then some (m.set i v) else none

/-- Payload after a successful realloc to n payload bytes: the old bytes are kept up to
the smaller of the two sizes, the others are indeterminate. -/
def resize (h : Heap) (m : List Int) (n : Nat) : List Int :=
  m.take n ++ (List.range (n - m.length)).map (fun i => h.junk (m.length + i))

/-- The bytes the buffer holds: the first len bytes of the payload. -/
def content (s : Sstr) : List Int := s.data.take s.len

/-! ## Shift and zero primitives -/

/-- The ascending loop of shift: copies n bytes, lowest address first. -/
def shift_up (m : List Int) (d s : Nat) : Nat → Option (List Int)
  | 0 => some m
  | n + 1 =>
    match load m s with
    | none => none
    | some v =>
      match store m d v with
      | none => none
      | some m1 => shift_up m1 (d + 1) (s + 1) n

/-- The descending loop of shift: copies n bytes, highest address first. -/
def shift_down (m : List Int) (d s : Nat) : Nat → Option (List Int)
  | 0 => some m
  | n + 1 =>
    match load m (s + n) with
    | none => none
    | some v =>
      match store m (d + n) v with
      | none => none
      | some m1 => shift_down m1 d s n

/-- Overlap-aware block move inside the payload: dest and src are payload offsets. -/
def shift (m : List Int) (dest src len : Nat) : Option (List Int) :=
  if dest < src then shift_up m dest src len else shift_down m dest src len

/-- Zero fill of n bytes from offset p on. -/
def zero (m : List Int) (p : Nat) : Nat → Option (List Int)
  | 0 => some m
  | n + 1 =>
    match store m p 0 with
    | none => none
    | some m1 => zero m1 (p + 1) n

/-- The loop that writes bytes i, i+1, ... of the run str to offset p + (q + i), the inner
sum being a size word; k iterations remain. -/
def copy_in (m : List Int) (p q : Nat) (str : List Int) (i : Nat) : Nat → Option (List Int)
  | 0 => some m
  | k + 1 =>
    match str[i]? with
    | none => none
    | some v =>
      match store m (p + sz_add q i) v with
      | none => none
      | some m1 => copy_in m1 p q str (i + 1) k

/-- The loop that writes the byte ch to offsets p, p+1, ...; k iterations remain. -/
def fill (m : List Int) (p : Nat) (ch : Int) : Nat → Option (List Int)
  | 0 => some m
  | k + 1 =>
    match store m p ch with
    | none => none
    | some m1 => fill m1 (p + 1) ch k

/-! ## Construction and growth -/

/-- Construction of an empty buffer: calloc of the header and pow2 (cap + 1) zero bytes.
A refused allocation makes the header writes fault. -/
def sstr_new (h : Heap) (cap : Nat) : Option Sstr :=
  let cap := pow2 (sz_add cap 1)
  let bytes := sz_add 16 cap
  if h.grant bytes then some ⟨cap, 0, List.replicate (bytes - 16) 0⟩ else none

/-- Growth by realloc to pow2 (cap + additional) payload bytes. -/
def sstr_reserve (h : Heap) (s : Sstr) (additional : Nat) : Int × Sstr :=
  if additional = 0 then (0, s)
  else
    let cap := s.cap
    let new_cap := pow2 (sz_add cap additional)
    let bytes := sz_add 16 new_cap
    if h.grant bytes then (0, ⟨new_cap, s.len, resize h s.data (bytes - 16)⟩)
    else (1, s)

/-- The halving loop of shrink_to_fit; the first argument bounds the iterations. -/
def shrink_loop (len : Nat) : Nat → Nat → Nat
  | 0, cap => cap
  | k + 1, cap => if cap / 2 > len then shrink_loop len k (cap / 2) else cap

/-- Release of unused capacity by realloc. -/
def sstr_shrink_to_fit (h : Heap) (s : Sstr) : Int × Sstr :=
  let cap := shrink_loop s.len s.cap s.cap
  let bytes := sz_add 16 cap
  if h.grant bytes then (0, ⟨cap, s.len, resize h s.data (bytes - 16)⟩)
  else (1, s)

/-- Zeroing of the occupied bytes and reset of the length. -/
def sstr_clear (s : Sstr) : Option Sstr :=
  match fill s.data 0 0 s.len with
  | none => none
  | some m => some ⟨s.cap, 0, m⟩

/-! ## Push, pop and construction from bytes -/

/-- Append of one byte; the zero byte is skipped.  The reserve result is tested with
`< 0`, as in the source. -/
def sstr_push (h : Heap) (s : Sstr) (ch : Int) : Option (Int × Sstr) :=
  if ch = 0 then some (0, s)
  else
    let r := if s.len = s.cap then sstr_reserve h s 1 else (0, s)
    if r.1 < 0 then some (-1, r.2)
    else
      match store r.2.data s.len ch with
      | none => none
      | some m1 =>
        match store m1 (sz_add s.len 1) 0 with
        | none => none
        | some m2 => some (1, ⟨r.2.cap, sz_add s.len 1, m2⟩)

/-- Removal of the last byte, which is returned; the zero byte on an empty buffer. -/
def sstr_pop (s : Sstr) : Option (Int × Sstr) :=
  if s.len = 0 then some (0, s)
  else
    let len := sz_sub s.len 1
    match load s.data len with
    | none => none
    | some ch =>
      match store s.data len 0 with
      | none => none
      | some m => some (ch, ⟨s.cap, len, m⟩)

/-- The push loop of sstr_from over str[i], str[i+1], ...; k iterations remain. -/
def from_loop (h : Heap) (str : List Int) (s : Sstr) (i : Nat) : Nat → Option Sstr
  | 0 => some s
  | k + 1 =>
    match str[i]? with
    | none => none
    | some c =>
      match sstr_push h s c with
      | none => none
      | some r => from_loop h str r.2 (i + 1) k

/-- Construction from the block str and a length: pushes str[0] .. str[len] and then a
zero byte. -/
def sstr_from (h : Heap) (str : List Int) (len : Nat) : Option Sstr :=
  match sstr_new h (sz_add len 1) with
  | none => none
  | some s =>
    match from_loop h str s 0 (len + 1) with
    | none => none
    | some s1 =>
      match sstr_push h s1 0 with
      | none => none
      | some r => some r.2

/-! ## Insert and remove -/

/-- The part of sstr_insert after the capacity check. -/
def insert_body (s : Sstr) (index : Nat) (str : List Int) (len_s len : Nat) :
    Option (Int × Sstr) :=
  match shift s.data (index + len_s) index (sz_sub len index) with
  | none => none
  | some m1 =>
    match copy_in m1 0 index str 0 len_s with
    | none => none
    | some m2 => some (0, ⟨s.cap, sz_add len len_s, m2⟩)

/-- Insertion of the first len_s bytes of str at index. -/
def sstr_insert (h : Heap) (s : Sstr) (index : Nat) (str : List Int) (len_s : Nat) :
    Option (Int × Sstr) :=
  let cap := s.cap
  let len := s.len
  if len_s = 0 then some (0, s)
  else if index > len then some (1, s)
  else if sz_add len len_s > cap then
    let r := sstr_reserve h s (sz_add (sz_sub (sz_add len len_s) cap) 1)
    if r.1 ≠ 0 then some (1, r.2) else insert_body r.2 index str len_s len
  else insert_body s index str len_s len

/-- Removal of n bytes at offset. -/
def sstr_remove (s : Sstr) (offset n : Nat) : Option Sstr :=
  let len := s.len
  if n > len then
    match zero s.data 0 len with
    | none => none
    | some m => some ⟨s.cap, s.len, m⟩
  else
    match shift s.data offset (offset + n) (sz_sub len offset) with
    | none => none
    | some m1 =>
      match zero m1 (len + n) n with
      | none => none
      | some m2 => some ⟨s.cap, sz_sub len n, m2⟩

/-! ## Comparison and search -/

/-- The loop of sstr_compare from index i on; k iterations remain.  The inner result is
the return value when the loop returns. -/
def compare_loop (m b : List Int) (i : Nat) : Nat → Option (Option Int)
  | 0 => some none
  | k + 1 =>
    match load m i with
    | none => none
    | some x =>
      match b[i]? with
      | none => none
      | some y =>
        if x > y then some (some 1)
        else if x < y then some (some (-1))
        else compare_loop m b (i + 1) k

/-- Three-way comparison of the buffer with the first len_b bytes of b. -/
def sstr_compare (a : Sstr) (b : List Int) (len_b : Nat) : Option Int :=
  let len_a := a.len
  let min := if len_a < len_b then len_a else len_b
  match compare_loop a.data b 0 min with
  | none => none
  | some (some r) => some r
  | some none =>
    if len_a > len_b then some 1
    else if len_b > len_a then some (-1)
    else some 0

/-- The inner loop of sstr_find at position i, from needle index j on; k iterations
remain.  The result tells whether the loop returned a match. -/
def find_inner (m a : List Int) (i len_a j : Nat) : Nat → Option Bool
  | 0 => some false
  | k + 1 =>
    match load m (sz_add i j) with
    | none => none
    | some x =>
      match a[j]? with
      | none => none
      | some y =>
        if x ≠ y then some false
        else if sz_add j 1 = len_a then some true
        else find_inner m a i len_a (j + 1) k

/-- The outer loop of sstr_find from position i on; k iterations remain.  The inner
result is the index found. -/
def find_outer (m a : List Int) (len_a i : Nat) : Nat → Option (Option Nat)
  | 0 => some none
  | k + 1 =>
    match load m i with
    | none => none
    | some x =>
      match a[0]? with
      | none => none
      | some y =>
        if x = y then
          match find_inner m a i len_a 0 len_a with
          | none => none
          | some true => some (some i)
          | some false => find_outer m a len_a (i + 1) k
        else find_outer m a len_a (i + 1) k

/-- Search for the first len_a bytes of a from start on.  The result is the status code
and the value of the out-parameter, which enters as index. -/
def sstr_find (s : Sstr) (index start : Nat) (a : List Int) (len_a : Nat) :
    Option (Int × Nat) :=
  let len := s.len
  if start > sz_sub len len_a then some (1, index)
  else
    match find_outer s.data a len_a start (sz_add (sz_sub len len_a) 1 - start) with
    | none => none
    | some (some i) => some (0, i)
    | some none => some (1, index)

/-! ## Replace -/

/-- The part of sstr_replace after the search and the capacity check.  The zeroed range
starts at the size-word offset len - len_a + len_b; the search succeeded, so len_a ≤ len
whenever the needle was found inside the content. -/
def replace_body (s : Sstr) (idx : Nat) (len_a : Nat) (b : List Int) (len_b len : Nat) :
    Option (Int × Sstr) :=
  if len_b = 0 then
    match sstr_remove s idx len_a with
    | none => none
    | some s1 => some (0, s1)
  else
    match shift s.data (idx + len_b) (idx + len_a) (sz_sub len len_a) with
    | none => none
    | some m1 =>
      match (if len_b < len_a then
               zero m1 (sz_add (sz_sub len len_a) len_b) (sz_sub len_a len_b)
             else some m1) with
      | none => none
      | some m2 =>
        match copy_in m2 0 idx b 0 len_b with
        | none => none
        | some m3 => some (0, ⟨s.cap, sz_add (sz_sub len len_a) len_b, m3⟩)

/-- Replacement of the first occurrence of a at or after start by b. -/
def sstr_replace (h : Heap) (s : Sstr) (start : Nat) (a : List Int) (len_a : Nat)
    (b : List Int) (len_b : Nat) : Option (Int × Sstr) :=
  let cap := s.cap
  let len := s.len
  if start > sz_sub len len_a then some (1, s)
  else
    match sstr_find s 0 start a len_a with
    | none => none
    | some (code, idx) =>
      if code ≠ 0 then some (1, s)
      else
        let required := sz_add (sz_sub len len_a) len_b
        if required > cap then
          let r := sstr_reserve h s (sz_sub required cap)
          if r.1 ≠ 0 then some (1, r.2) else replace_body r.2 idx len_a b len_b len
        else replace_body s idx len_a b len_b len

/-! ## Padding, prepend and concat -/

/-- The part of sstr_pad_left after the capacity check. -/
def pad_left_body (s : Sstr) (ch : Int) (n len : Nat) : Option (Int × Sstr) :=
  match shift s.data n 0 len with
  | none => none
  | some m1 =>
    match fill m1 0 ch n with
    | none => none
    | some m2 => some (0, ⟨s.cap, sz_add len n, m2⟩)

/-- Insertion of n copies of ch at the front. -/
def sstr_pad_left (h : Heap) (s : Sstr) (ch : Int) (n : Nat) : Option (Int × Sstr) :=
  let cap := s.cap
  let len := s.len
  if cap < sz_add (sz_add len n) 1 then
    let r := sstr_reserve h s (sz_add (sz_sub (sz_add len n) cap) 1)
    if r.1 ≠ 0 then some (1, r.2) else pad_left_body r.2 ch n len
  else pad_left_body s ch n len

/-- The part of sstr_pad_right after the capacity check. -/
def pad_right_body (s : Sstr) (ch : Int) (n len : Nat) : Option (Int × Sstr) :=
  match fill s.data len ch n with
  | none => none
  | some m1 =>
    match store m1 (len + n) 0 with
    | none => none
    | some m2 => some (0, ⟨s.cap, sz_add len n, m2⟩)

/-- Append of n copies of ch. -/
def sstr_pad_right (h : Heap) (s : Sstr) (ch : Int) (n : Nat) : Option (Int × Sstr) :=
  let cap := s.cap
  let len := s.len
  if cap < sz_add (sz_add len n) 1 then
    let r := sstr_reserve h s (sz_add (sz_sub (sz_add len n) cap) 1)
    if r.1 ≠ 0 then some (1, r.2) else pad_right_body r.2 ch n len
  else pad_right_body s ch n len

/-- Padding on both sides towards the total length n; the results of the reserve and of
the two padding calls are not examined. -/
def sstr_pad_center (h : Heap) (s : Sstr) (ch : Int) (n : Nat) : Option (Int × Sstr) :=
  let cap := s.cap
  let len := s.len
  if len = n then some (0, s)
  else
    let s1 :=
      if cap < sz_add len n then
        (sstr_reserve h s (sz_add (sz_sub (sz_add (sz_sub n len) n) cap) 1)).2
      else s
    let diff := sz_sub n len
    let right := diff / 2
    let left := sz_sub diff right
    match sstr_pad_left h s1 ch left with
    | none => none
    | some r1 =>
      match sstr_pad_right h r1.2 ch right with
      | none => none
      | some r2 => some (0, r2.2)

/-- The part of sstr_prepend after the capacity check. -/
def prepend_body (s : Sstr) (a : List Int) (len_a len : Nat) : Option (Int × Sstr) :=
  match shift s.data len_a 0 len with
  | none => none
  | some m1 =>
    match copy_in m1 0 0 a 0 len_a with
    | none => none
    | some m2 => some (0, ⟨s.cap, sz_add len len_a, m2⟩)

/-- Insertion of the first len_a bytes of a at the front. -/
def sstr_prepend (h : Heap) (s : Sstr) (a : List Int) (len_a : Nat) : Option (Int × Sstr) :=
  let cap := s.cap
  let len := s.len
  if cap < sz_add (sz_add len len_a) 1 then
    let r := sstr_reserve h s (sz_add (sz_sub (sz_add len len_a) cap) 1)
    if r.1 ≠ 0 then some (1, r.2) else prepend_body r.2 a len_a len
  else prepend_body s a len_a len

/-- The part of sstr_concat after the capacity check: the copy to p = s + len, the zero
byte written to p[len_a + 1], and the new length. -/
def concat_body (s : Sstr) (a : List Int) (len_a len : Nat) : Option (Int × Sstr) :=
  match copy_in s.data len 0 a 0 len_a with
  | none => none
  | some m1 =>
    match store m1 (len + sz_add len_a 1) 0 with
    | none => none
    | some m2 => some (0, ⟨s.cap, sz_add len len_a, m2⟩)

/-- Append of the first len_a bytes of a.  The growth request is cap - len - len_a + 1 in
size words, and a failed reserve returns 0, as in the source. -/
def sstr_concat (h : Heap) (s : Sstr) (a : List Int) (len_a : Nat) : Option (Int × Sstr) :=
  let len := s.len
  let cap := s.cap
  if cap < sz_add len len_a then
    let r := sstr_reserve h s (sz_add (sz_sub (sz_sub cap len) len_a) 1)
    if r.1 ≠ 0 then some (0, r.2) else concat_body r.2 a len_a len
  else concat_body s a len_a len

/-! ## Trimming -/

/-- Whitespace test of the C library in the C locale: space, and the control bytes from
tab (9) to carriage return (13). -/
def isspace (c : Int) : Bool := c = 32 || (9 ≤ c && c ≤ 13)

/-- The scan of sstr_trim_left from index i on; k iterations remain.  The result is the
index at which the loop ends. -/
def trim_left_scan (m : List Int) (i : Nat) : Nat → Option Nat
  | 0 => some i
  | k + 1 =>
    match load m i with
    | none => none
    | some c => if !isspace c then some i else trim_left_scan m (i + 1) k

/-- Removal of the leading whitespace run. -/
def sstr_trim_left (s : Sstr) : Option Sstr :=
  let len := s.len
  if len = 0 then some s
  else
    match trim_left_scan s.data 0 len with
    | none => none
    | some i => sstr_remove s 0 i

/-- The scan of sstr_trim_right, entered with a positive index i + 1 or with 0: it runs
while the index is positive, and on a byte that is not whitespace steps the index up by one
and stops.  The result is the index at which the loop ends. -/
def trim_right_scan (m : List Int) : Nat → Option Nat
  | 0 => some 0
  | i + 1 =>
    match load m (i + 1) with
    | none => none
    | some c => if !isspace c then some (i + 2) else trim_right_scan m i

/-- Removal of the trailing whitespace run.  The index is a signed word: the loop is
skipped when len - 1 is negative as a signed word. -/
def sstr_trim_right (s : Sstr) : Option Sstr :=
  let len := s.len
  if len = 0 then some s
  else
    let i0 := sz_sub len 1
    match (if i0 < 9223372036854775808 then trim_right_scan s.data i0 else some i0) with
    | none => none
    | some i => sstr_remove s i (sz_sub len i)

/-- An allocator that grants every request and hands out zero bytes. -/
def heap_ok : Heap := ⟨fun _ => true, fun _ => 0⟩

/-- An allocator that grants every request and hands out bytes of value 7. -/
def heap_junk : Heap := ⟨fun _ => true, fun _ => 7⟩

/-! ## Specification-side definitions -/

/-- The comparison as the specification words it: byte by byte up to the shorter length,
the first differing byte decides; on an exhausted common prefix the longer run is the
greater one.  The result is -1 (less), 0 (equal) or 1 (greater). -/
def lex_compare_spec : List Int → List Int → Int
  | [], [] => 0
  | [], _ :: _ => -1
  | _ :: _, [] => 1
  | x :: xs, y :: ys => if x > y then 1 else if x < y then -1 else lex_compare_spec xs ys

/-- The run a occurs in u at index i: the bytes u[i .. i + len(a)) are the bytes of a. -/
def occurs_at (u a : List Int) (i : Nat) : Prop := (u.drop i).take a.length = a

instance (u a : List Int) (i : Nat) : Decidable (occurs_at u a i) := by
  unfold occurs_at
  infer_instance

/-- The rounding as the specification words it: p is the smallest power of two that is at
least n. -/
def is_next_pow2 (n p : Nat) : Prop := (∃ k, p = 2 ^ k) ∧ n ≤ p ∧ ∀ j, n ≤ 2 ^ j → p ≤ 2 ^ j

/-- One smearing step of pow2: the statement n |= n >> k. -/
def smear (x k : Nat) : Nat := x ||| (x >>> k)

/-! ## Arithmetic lemmas -/

theorem sz_add_eq (a b : Nat) (h : a + b < SIZE_MOD) : sz_add a b = a + b := by
  unfold sz_add; exact Nat.mod_eq_of_lt h

theorem sz_sub_eq (a b : Nat) (hb : b ≤ a) (ha : a < SIZE_MOD) : sz_sub a b = a - b := by
  unfold sz_sub SIZE_MOD at *
  omega

theorem le_lor_left (a b : Nat) : a ≤ a ||| b := by
  induction a using Nat.strong_induction_on generalizing b with
  | _ a ih =>
    rcases Nat.eq_zero_or_pos a with h0 | hpos
    · subst h0; exact Nat.zero_le _
    · have h1 := ih (a / 2) (by omega) (b / 2)
      have h2 : (a ||| b) / 2 = a / 2 ||| b / 2 := Nat.or_div_two
      have h3 : a % 2 = 1 → (a ||| b) % 2 = 1 := fun h => Nat.or_mod_two_eq_one.mpr (Or.inl h)
      omega

theorem smear_step (x k : Nat) (hx : x < 2 ^ 63) :
    x ≤ x ||| (x >>> k) ∧ x ||| (x >>> k) < 2 ^ 63 := by
  refine ⟨le_lor_left _ _, Nat.or_lt_two_pow hx ?_⟩
  rw [Nat.shiftRight_eq_div_pow]
  exact Nat.lt_of_le_of_lt (Nat.div_le_self _ _) hx

theorem pow2_bounds (n : Nat) (h1 : 1 ≤ n) (h2 : n ≤ 2 ^ 63) :
    n ≤ pow2 n ∧ pow2 n ≤ 2 ^ 63 := by
  have hm : sz_sub n 1 = n - 1 := sz_sub_eq n 1 h1 (by unfold SIZE_MOD; omega)
  have h0 : n - 1 < 2 ^ 63 := by omega
  obtain ⟨a1, b1⟩ := smear_step (n - 1) 1 h0
  obtain ⟨a2, b2⟩ := smear_step _ 2 b1
  obtain ⟨a3, b3⟩ := smear_step _ 4 b2
  obtain ⟨a4, b4⟩ := smear_step _ 8 b3
  obtain ⟨a5, b5⟩ := smear_step _ 16 b4
  obtain ⟨a6, b6⟩ := smear_step _ 32 b5
  unfold pow2
  simp only [hm]
  rw [sz_add_eq _ _ (by unfold SIZE_MOD; omega)]
  omega

/-! ## Memory lemmas -/

theorem load_eq (m : List Int) (i : Nat) : load m i = m[i]? := rfl

theorem store_eq_some (m : List Int) (i : Nat) (v : Int) (h : i < m.length) :
    store m i v = some (m.set i v) := by
  unfold store; simp [h]

theorem load_of_lt (m : List Int) (i : Nat) (h : i < m.length) :
    load m i = some (m.get ⟨i, h⟩) := by
  unfold load; simp [h]

/-- The descending copy of n bytes from s to d, for s ≤ d and an in-bounds destination,
succeeds and moves the block. -/
theorem shift_down_spec (n : Nat) : ∀ (m : List Int) (d s : Nat), s ≤ d → d + n ≤ m.length →
    ∃ m1, shift_down m d s n = some m1 ∧ m1.length = m.length ∧
      ∀ j, m1[j]? = if d ≤ j ∧ j < d + n then m[j - d + s]? else m[j]? := by
  induction n with
  | zero =>
    intro m d s _ _
    refine ⟨m, rfl, rfl, fun j => ?_⟩
    rw [if_neg (by omega)]
  | succ n ih =>
    intro m d s hsd hb
    have hs : s + n < m.length := by omega
    have hd : d + n < m.length := by omega
    obtain ⟨m1, hm1, hl1, hp1⟩ := ih (m.set (d + n) (m.get ⟨s + n, hs⟩)) d s hsd (by simp; omega)
    refine ⟨m1, ?_, by simpa using hl1, fun j => ?_⟩
    · simp only [shift_down, load_of_lt m (s + n) hs, store_eq_some m (d + n) _ hd]
      exact hm1
    · rw [hp1 j]
      by_cases h1 : d ≤ j ∧ j < d + n
      · have h2 : d ≤ j ∧ j < d + (n + 1) := by omega
        have h3 : d + n ≠ j - d + s := by omega
        simp [h1, h2, List.getElem?_set_ne h3]
      · by_cases h4 : j = d + n
        · subst h4
          have h2 : d ≤ d + n ∧ d + n < d + (n + 1) := by omega
          have h5 : d + n - d + s = s + n := by omega
          rw [if_neg h1, if_pos h2, h5, List.getElem?_set_self (by simpa using hd)]
          simp [hs]
        · have h2 : ¬ (d ≤ j ∧ j < d + (n + 1)) := by omega
          have h3 : d + n ≠ j := fun h => h4 h.symm
          simp [h1, h2, List.getElem?_set_ne h3]

/-- The byte-writing loop, for an in-bounds destination and a long enough source, succeeds
and writes the bytes i .. i + k of the run at offsets q + i .. q + i + k. -/
theorem copy_in_spec (str : List Int) (p q : Nat) (k : Nat) : ∀ (m : List Int) (i : Nat),
    p + q + i + k ≤ m.length → i + k ≤ str.length → q + i + k ≤ SIZE_MOD →
    ∃ m1, copy_in m p q str i k = some m1 ∧ m1.length = m.length ∧
      ∀ j, m1[j]? = if p + q + i ≤ j ∧ j < p + q + i + k then str[j - (p + q)]? else m[j]? := by
  induction k with
  | zero =>
    intro m i _ _ _
    refine ⟨m, rfl, rfl, fun j => ?_⟩
    rw [if_neg (by omega)]
  | succ k ih =>
    intro m i hb hs hw
    have hi : i < str.length := by omega
    have hq : sz_add q i = q + i := sz_add_eq q i (by omega)
    have hd : p + (q + i) < m.length := by omega
    obtain ⟨m1, hm1, hl1, hp1⟩ :=
      ih (m.set (p + (q + i)) (str.get ⟨i, hi⟩)) (i + 1) (by simp; omega) (by omega) (by omega)
    refine ⟨m1, ?_, by simpa using hl1, fun j => ?_⟩
    · have hget : str[i]? = some (str.get ⟨i, hi⟩) := by simp [hi]
      simp only [copy_in, hget, hq, store_eq_some m (p + (q + i)) _ hd]
      exact hm1
    · rw [hp1 j]
      by_cases h1 : p + q + (i + 1) ≤ j ∧ j < p + q + (i + 1) + k
      · have h2 : p + q + i ≤ j ∧ j < p + q + i + (k + 1) := by omega
        simp [h1, h2]
      · by_cases h4 : j = p + q + i
        · subst h4
          have h2 : p + q + i ≤ p + q + i ∧ p + q + i < p + q + i + (k + 1) := by omega
          have h5 : p + q + i - (p + q) = i := by omega
          have h6 : p + (q + i) = p + q + i := by omega
          rw [if_neg h1, if_pos h2, h5, h6, List.getElem?_set_self (by omega)]
          simp [hi]
        · have h2 : ¬ (p + q + i ≤ j ∧ j < p + q + i + (k + 1)) := by omega
          have h3 : p + (q + i) ≠ j := by omega
          simp [h1, h2, List.getElem?_set_ne h3]

/-! ## Insert -/

/-- Pointwise description of a list spliced from a prefix, a run and the rest. -/
theorem splice_getElem? (u x : List Int) (i j : Nat) (hi : i ≤ u.length) :
    (u.take i ++ x ++ u.drop i)[j]? =
      if j < i then u[j]? else if j < i + x.length then x[j - i]? else u[j - x.length]? := by
  have hl : (u.take i).length = i := by simp [hi]
  by_cases h1 : j < i
  · rw [if_pos h1, List.append_assoc, List.getElem?_append_left (by omega),
      List.getElem?_take_of_lt h1]
  · rw [if_neg h1, List.append_assoc, List.getElem?_append_right (by omega), hl]
    by_cases h2 : j < i + x.length
    · rw [if_pos h2, List.getElem?_append_left (by omega)]
    · rw [if_neg h2, List.getElem?_append_right (by omega), List.getElem?_drop]
      congr 1
      omega

theorem insert_body_spec (s : Sstr) (i : Nat) (x : List Int) (len : Nat) (hi : i ≤ len)
    (hroom : len + x.length ≤ s.data.length) (hsz : len + x.length < SIZE_MOD) :
    ∃ s1, insert_body s i x x.length len = some (0, s1) ∧ s1.cap = s.cap ∧
      s1.len = len + x.length ∧ s1.data.length = s.data.length ∧
      s1.data.take (len + x.length) =
        (s.data.take len).take i ++ x ++ (s.data.take len).drop i := by
  have hsub : sz_sub len i = len - i := sz_sub_eq len i hi (by omega)
  have hshift : shift s.data (i + x.length) i (len - i) =
      shift_down s.data (i + x.length) i (len - i) := by
    unfold shift; rw [if_neg (by omega)]
  obtain ⟨m1, hm1, hl1, hp1⟩ :=
    shift_down_spec (len - i) s.data (i + x.length) i (by omega) (by omega)
  obtain ⟨m2, hm2, hl2, hp2⟩ :=
    copy_in_spec x 0 i x.length m1 0 (by omega) (by omega) (by omega)
  refine ⟨⟨s.cap, len + x.length, m2⟩, ?_, rfl, rfl, by simp [hl2, hl1], ?_⟩
  · simp only [insert_body, hsub, hshift, hm1, hm2, sz_add_eq len x.length hsz]
  · apply List.ext_getElem?
    intro j
    have hc : (s.data.take len).length = len := by simp; omega
    rw [splice_getElem? _ _ _ _ (by omega), List.getElem?_take, hp2 j]
    by_cases h1 : j < i
    · rw [if_pos (by omega), if_neg (by omega), if_pos h1, hp1 j, if_neg (by omega),
        List.getElem?_take_of_lt (by omega)]
    · rw [if_neg h1]
      by_cases h2 : j < i + x.length
      · rw [if_pos (by omega), if_pos (by omega), if_pos h2]
        congr 1
        omega
      · rw [if_neg h2]
        by_cases h3 : j < len + x.length
        · rw [if_pos h3, if_neg (by omega), hp1 j, if_pos (by omega),
            List.getElem?_take_of_lt (by omega)]
          congr 1
          omega
        · rw [if_neg h3, List.getElem?_take_eq_none (by omega)]

theorem resize_length (h : Heap) (m : List Int) (n : Nat) : (resize h m n).length = n := by
  unfold resize
  simp
  omega

theorem resize_getElem? (h : Heap) (m : List Int) (n j : Nat) (hj : j < m.length)
    (hn : j < n) : (resize h m n)[j]? = m[j]? := by
  unfold resize
  rw [List.getElem?_append_left (by simp; omega), List.getElem?_take_of_lt hn]

theorem resize_take (h : Heap) (m : List Int) (n k : Nat) (hk : k ≤ m.length) (hn : k ≤ n) :
    (resize h m n).take k = m.take k := by
  apply List.ext_getElem?
  intro j
  rw [List.getElem?_take, List.getElem?_take]
  by_cases hj : j < k
  · rw [if_pos hj, if_pos hj, resize_getElem? h m n j (by omega) (by omega)]
  · rw [if_neg hj, if_neg hj]

/-- C3. For a buffer whose length is at most its capacity, an index i with i ≤ length and
a non-empty byte run x, insert returns 0 (success) and leaves length L + len(x) and the
content c[0..i) ++ x ++ c[i..L).  The allocation has cap payload bytes, sizes stay below
2^63 and the allocator grants the requests. -/
theorem insert_content (h : Heap) (s : Sstr) (i : Nat) (x : List Int)
    (hdata : s.data.length = s.cap) (hlen : s.len ≤ s.cap) (hi : i ≤ s.len) (hx : x ≠ [])
    (hsize : s.len + x.length + 1 ≤ 2 ^ 63) (hg : ∀ n, h.grant n = true) :
    ∃ s1, sstr_insert h s i x x.length = some (0, s1) ∧ s1.len = s.len + x.length ∧
      content s1 = (content s).take i ++ x ++ (content s).drop i := by
  have hx0 : x.length ≠ 0 := by
    intro h0; exact hx (List.length_eq_zero.mp h0)
  have hsz : s.len + x.length < SIZE_MOD := by unfold SIZE_MOD; omega
  have hadd : sz_add s.len x.length = s.len + x.length := sz_add_eq _ _ hsz
  by_cases hgrow : s.len + x.length > s.cap
  · -- the buffer grows to pow2 (len + len_s + 1) payload bytes
    have h1 : sz_sub (s.len + x.length) s.cap = s.len + x.length - s.cap :=
      sz_sub_eq _ _ (by omega) hsz
    have h2 : sz_add (s.len + x.length - s.cap) 1 = s.len + x.length - s.cap + 1 :=
      sz_add_eq _ _ (by unfold SIZE_MOD; omega)
    have h3 : sz_add s.cap (s.len + x.length - s.cap + 1) = s.len + x.length + 1 := by
      rw [sz_add_eq _ _ (by unfold SIZE_MOD; omega)]; omega
    obtain ⟨hp1, hp2⟩ := pow2_bounds (s.len + x.length + 1) (by omega) hsize
    have h4 : sz_add 16 (pow2 (s.len + x.length + 1)) = 16 + pow2 (s.len + x.length + 1) :=
      sz_add_eq _ _ (by unfold SIZE_MOD; omega)
    have hres : sstr_reserve h s (s.len + x.length - s.cap + 1) =
        (0, ⟨pow2 (s.len + x.length + 1), s.len,
          resize h s.data (pow2 (s.len + x.length + 1))⟩) := by
      unfold sstr_reserve
      rw [if_neg (by omega)]
      simp only [h3, h4, hg, if_true]
      congr 3
      omega
    obtain ⟨s1, hb, -, hl, -, hc⟩ := insert_body_spec
      ⟨pow2 (s.len + x.length + 1), s.len, resize h s.data (pow2 (s.len + x.length + 1))⟩
      i x s.len hi (by simp only [resize_length]; omega) hsz
    refine ⟨s1, ?_, hl, ?_⟩
    · unfold sstr_insert
      simp only [hadd, h1, h2, hres]
      rw [if_neg hx0, if_neg (by omega), if_pos hgrow]
      simpa using hb
    · unfold content
      rw [hl, hc]
      simp only
      rw [resize_take h s.data _ s.len (by omega) (by omega)]
  · obtain ⟨s1, hb, -, hl, -, hc⟩ := insert_body_spec s i x s.len hi (by omega) hsz
    refine ⟨s1, ?_, hl, ?_⟩
    · unfold sstr_insert
      simp only [hadd]
      rw [if_neg hx0, if_neg (by omega), if_neg hgrow]
      exact hb
    · unfold content
      rw [hl, hc]

/-! ## Push and construction from bytes -/


/-- A push of a non-zero byte into a buffer with room for the byte and the zero byte
behind it writes both and returns 1. -/
theorem push_room (h : Heap) (s : Sstr) (ch : Int) (hch : ch ≠ 0)
    (hroom : s.len + 1 < s.data.length) (hcap : s.len ≠ s.cap)
    (hsz : s.len + 1 < SIZE_MOD) :
    sstr_push h s ch =
      some (1, ⟨s.cap, s.len + 1, (s.data.set s.len ch).set (s.len + 1) 0⟩) := by
  unfold sstr_push
  rw [if_neg hch]
  simp only [if_neg hcap]
  rw [if_neg (by decide), store_eq_some _ _ _ (by omega)]
  simp only [sz_add_eq _ _ hsz]
  rw [store_eq_some _ _ _ (by simpa using hroom)]

/-- The payload after the first i bytes of b were pushed into a zeroed payload of n
bytes. -/
theorem pushed_payload (b : List Int) (n i : Nat) (hi : i < b.length) (hn : i + 1 < n) :
    ((b.take i ++ List.replicate (n - i) 0).set i (b.get ⟨i, hi⟩)).set (i + 1) 0 =
      b.take (i + 1) ++ List.replicate (n - (i + 1)) 0 := by
  apply List.ext_getElem?
  intro j
  have hl : (b.take i).length = i := by simp; omega
  have hl1 : (b.take (i + 1)).length = i + 1 := by simp; omega
  rw [List.getElem?_set, List.getElem?_set, List.getElem?_append, List.getElem?_append,
    hl, hl1]
  simp only [List.length_set, List.length_append, List.length_replicate, hl]
  by_cases h1 : j < i
  · rw [if_neg (by omega), if_neg (by omega), if_pos h1, if_pos (by omega),
      List.getElem?_take_of_lt h1, List.getElem?_take_of_lt (by omega)]
  · by_cases h2 : j = i
    · subst h2
      rw [if_neg (by omega), if_pos rfl, if_pos (by omega), if_pos (by omega),
        List.getElem?_take_of_lt (by omega)]
      simp [hi]
    · by_cases h3 : j = i + 1
      · subst h3
        rw [if_pos rfl, if_pos (by omega), if_neg (by omega),
          List.getElem?_replicate_of_lt (by omega)]
      · rw [if_neg (by omega), if_neg (by omega), if_neg (by omega), if_neg (by omega),
          List.getElem?_replicate, List.getElem?_replicate]
        by_cases h4 : j < n
        · rw [if_pos (by omega), if_pos (by omega)]
        · rw [if_neg (by omega), if_neg (by omega)]

/-- The push loop of sstr_from over a run of non-zero bytes followed by a zero byte. -/
theorem from_loop_spec (h : Heap) (b rest : List Int) (n : Nat)
    (hz : ∀ x ∈ b, x ≠ 0) (hn : b.length + 2 ≤ n) (hsz : n < SIZE_MOD) (k : Nat) :
    ∀ i, i + k = b.length →
      from_loop h (b ++ 0 :: rest) ⟨n, i, b.take i ++ List.replicate (n - i) 0⟩ i (k + 1) =
        some ⟨n, b.length, b ++ List.replicate (n - b.length) 0⟩ := by
  induction k with
  | zero =>
    intro i hi
    have hi2 : i = b.length := by omega
    subst hi2
    have hget : (b ++ 0 :: rest)[b.length]? = some 0 := by
      rw [List.getElem?_append_right (Nat.le_refl _)]; simp
    simp only [from_loop, hget, sstr_push, if_true, List.take_length]
  | succ k ih =>
    intro i hi
    have hib : i < b.length := by omega
    have hget : (b ++ 0 :: rest)[i]? = some (b.get ⟨i, hib⟩) := by
      rw [List.getElem?_append_left hib]; simp [hib]
    have hne : b.get ⟨i, hib⟩ ≠ 0 := hz _ (List.get_mem b i hib)
    have hpush := push_room h ⟨n, i, b.take i ++ List.replicate (n - i) 0⟩
      (b.get ⟨i, hib⟩) hne (by simp; omega) (by simp; omega) (by simp; omega)
    simp only [] at hpush
    rw [pushed_payload b n i hib (by omega)] at hpush
    rw [from_loop, hget]
    simp only [hpush]
    exact ih (i + 1) (by omega)

theorem sstr_new_eq (h : Heap) (n : Nat) (hn : n + 1 ≤ 2 ^ 63) (hg : ∀ n, h.grant n = true) :
    sstr_new h n = some ⟨pow2 (n + 1), 0, List.replicate (pow2 (n + 1)) 0⟩ := by
  obtain ⟨-, hp2⟩ := pow2_bounds (n + 1) (by omega) hn
  have h1 : sz_add n 1 = n + 1 := sz_add_eq _ _ (by unfold SIZE_MOD; omega)
  have h2 : sz_add 16 (pow2 (n + 1)) - 16 = pow2 (n + 1) := by
    rw [sz_add_eq _ _ (by unfold SIZE_MOD; omega)]; omega
  unfold sstr_new
  rw [h1]
  simp only [hg, if_true, h2]

theorem push_zero (h : Heap) (s : Sstr) : sstr_push h s 0 = some (0, s) := by
  unfold sstr_push
  rw [if_pos rfl]

theorem sstr_from_eq (h : Heap) (str : List Int) (len : Nat) (s s1 : Sstr)
    (hnew : sstr_new h (sz_add len 1) = some s)
    (hloop : from_loop h str s 0 (len + 1) = some s1) :
    sstr_from h str len = some s1 := by
  unfold sstr_from
  rw [hnew]
  simp only []
  rw [hloop]
  simp only [push_zero]

/-- The exact result of sstr_from on a run of non-zero bytes followed by a zero byte. -/
theorem from_result (h : Heap) (b rest : List Int) (hz : ∀ x ∈ b, x ≠ 0)
    (hsize : b.length + 2 ≤ 2 ^ 63) (hg : ∀ n, h.grant n = true) :
    sstr_from h (b ++ 0 :: rest) b.length =
      some ⟨pow2 (b.length + 2), b.length,
        b ++ List.replicate (pow2 (b.length + 2) - b.length) 0⟩ := by
  obtain ⟨hp1, hp2⟩ := pow2_bounds (b.length + 2) (by omega) hsize
  have h1 : sz_add b.length 1 = b.length + 1 := sz_add_eq _ _ (by unfold SIZE_MOD; omega)
  have hnew : sstr_new h (sz_add b.length 1) = some ⟨pow2 (b.length + 2), 0,
      List.replicate (pow2 (b.length + 2)) 0⟩ := by
    rw [h1]; exact sstr_new_eq h (b.length + 1) hsize hg
  have hloop := from_loop_spec h b rest (pow2 (b.length + 2)) hz hp1
    (by unfold SIZE_MOD; omega) b.length 0 (by omega)
  rw [List.take_zero, List.nil_append, Nat.sub_zero] at hloop
  exact sstr_from_eq h _ _ _ _ hnew hloop

/-- C2 (amended). For a byte run b of length L that holds no zero byte and is followed
by a zero byte, from(b, L) yields a buffer of length L whose content is b.  Sizes stay
below 2^63 and the allocator grants the request. -/
theorem from_content (h : Heap) (b rest : List Int) (hz : ∀ x ∈ b, x ≠ 0)
    (hsize : b.length + 2 ≤ 2 ^ 63) (hg : ∀ n, h.grant n = true) :
    ∃ s, sstr_from h (b ++ 0 :: rest) b.length = some s ∧ s.len = b.length ∧
      content s = b := by
  refine ⟨_, from_result h b rest hz hsize hg, rfl, ?_⟩
  unfold content
  exact List.take_left _ _

/-! ## Comparison -/

theorem lex_compare_spec_values (u v : List Int) :
    lex_compare_spec u v = -1 ∨ lex_compare_spec u v = 0 ∨ lex_compare_spec u v = 1 := by
  induction u generalizing v with
  | nil => cases v <;> simp [lex_compare_spec]
  | cons x xs ih =>
    cases v with
    | nil => simp [lex_compare_spec]
    | cons y ys =>
      unfold lex_compare_spec
      by_cases h1 : x > y
      · rw [if_pos h1]; simp
      · rw [if_neg h1]
        by_cases h2 : x < y
        · rw [if_pos h2]; simp
        · rw [if_neg h2]; exact ih ys

theorem lex_compare_spec_lt (u v : List Int) :
    lex_compare_spec u v = -1 ↔ List.Lex (· < ·) u v := by
  induction u generalizing v with
  | nil =>
    cases v with
    | nil => simp [lex_compare_spec, List.Lex.not_nil_right]
    | cons y ys => simp [lex_compare_spec, List.Lex.nil]
  | cons x xs ih =>
    cases v with
    | nil => simp [lex_compare_spec, List.Lex.not_nil_right]
    | cons y ys =>
      unfold lex_compare_spec
      by_cases h1 : x > y
      · rw [if_pos h1]
        constructor
        · intro h; exact absurd h (by decide)
        · intro h
          cases h with
          | cons h => exact absurd h1 (lt_irrefl _)
          | rel h => exact absurd h (not_lt.mpr (le_of_lt h1))
      · rw [if_neg h1]
        by_cases h2 : x < y
        · rw [if_pos h2]
          exact ⟨fun _ => List.Lex.rel h2, fun _ => rfl⟩
        · rw [if_neg h2]
          have hxy : x = y := le_antisymm (not_lt.mp h1) (not_lt.mp h2)
          subst hxy
          rw [ih ys]
          exact List.Lex.cons_iff.symm

theorem lex_compare_spec_gt (u v : List Int) :
    lex_compare_spec u v = 1 ↔ List.Lex (· < ·) v u := by
  induction u generalizing v with
  | nil =>
    cases v with
    | nil => simp [lex_compare_spec, List.Lex.not_nil_right]
    | cons y ys => simp [lex_compare_spec, List.Lex.not_nil_right]
  | cons x xs ih =>
    cases v with
    | nil => simp [lex_compare_spec, List.Lex.nil]
    | cons y ys =>
      unfold lex_compare_spec
      by_cases h1 : x > y
      · rw [if_pos h1]
        exact ⟨fun _ => List.Lex.rel h1, fun _ => rfl⟩
      · rw [if_neg h1]
        by_cases h2 : x < y
        · rw [if_pos h2]
          constructor
          · intro h; exact absurd h (by decide)
          · intro h
            cases h with
            | cons h => exact absurd h2 (lt_irrefl _)
            | rel h => exact absurd h h1
        · rw [if_neg h2]
          have hxy : x = y := le_antisymm (not_lt.mp h1) (not_lt.mp h2)
          subst hxy
          rw [ih ys]
          exact List.Lex.cons_iff.symm

theorem lex_compare_spec_eq (u v : List Int) :
    lex_compare_spec u v = 0 ↔ u = v := by
  induction u generalizing v with
  | nil => cases v <;> simp [lex_compare_spec]
  | cons x xs ih =>
    cases v with
    | nil => simp [lex_compare_spec]
    | cons y ys =>
      unfold lex_compare_spec
      by_cases h1 : x > y
      · rw [if_pos h1]
        constructor
        · intro h; exact absurd h (by decide)
        · intro h
          have := (List.cons.inj h).1
          omega
      · rw [if_neg h1]
        by_cases h2 : x < y
        · rw [if_pos h2]
          constructor
          · intro h; exact absurd h (by decide)
          · intro h
            have := (List.cons.inj h).1
            omega
        · rw [if_neg h2]
          have hxy : x = y := le_antisymm (not_lt.mp h1) (not_lt.mp h2)
          subst hxy
          rw [ih ys]
          simp

theorem drop_cons_of_getElem? (l : List Int) (i : Nat) (x : Int) (h : l[i]? = some x) :
    l.drop i = x :: l.drop (i + 1) := by
  obtain ⟨hi, hx⟩ := List.getElem?_eq_some.mp h
  rw [List.drop_eq_getElem_cons hi, hx]

theorem getElem?_some_of_lt (l : List Int) (i : Nat) (h : i < l.length) :
    ∃ x, l[i]? = some x := ⟨_, List.getElem?_eq_getElem h⟩

/-- The comparison loop, run over the common length, either returns at the first
differing byte or falls through to the length test; in both cases the value returned is
the one the specification gives for the two remaining runs. -/
theorem compare_loop_spec (m b : List Int) (len : Nat) (hlen : len ≤ m.length) (k : Nat) :
    ∀ i, i + k = min len b.length →
      ∃ r, compare_loop m b i k = some r ∧
        r.getD (if len > b.length then 1 else if b.length > len then -1 else 0) =
          lex_compare_spec ((m.take len).drop i) (b.drop i) := by
  induction k with
  | zero =>
    intro i hi
    refine ⟨none, rfl, ?_⟩
    have hl : (m.take len).length = len := by simp; omega
    rw [Option.getD_none]
    by_cases h1 : len > b.length
    · have hi2 : i = b.length := by omega
      obtain ⟨x, hx⟩ := getElem?_some_of_lt (m.take len) i (by omega)
      rw [if_pos h1, drop_cons_of_getElem? _ _ _ hx,
        List.drop_eq_nil_of_le (by omega : b.length ≤ i)]
      rfl
    · rw [if_neg h1]
      have hi2 : i = len := by omega
      rw [List.drop_eq_nil_of_le (by omega : (m.take len).length ≤ i)]
      by_cases h2 : b.length > len
      · obtain ⟨y, hy⟩ := getElem?_some_of_lt b i (by omega)
        rw [if_pos h2, drop_cons_of_getElem? _ _ _ hy]
        rfl
      · rw [if_neg h2, List.drop_eq_nil_of_le (by omega : b.length ≤ i)]
        rfl
  | succ k ih =>
    intro i hi
    have hl : (m.take len).length = len := by simp; omega
    obtain ⟨x, hx⟩ := getElem?_some_of_lt m i (by omega)
    obtain ⟨y, hy⟩ := getElem?_some_of_lt b i (by omega)
    have hx2 : (m.take len)[i]? = some x := by
      rw [List.getElem?_take_of_lt (by omega)]; exact hx
    obtain ⟨r, hr, hv⟩ := ih (i + 1) (by omega)
    rw [drop_cons_of_getElem? _ _ _ hx2, drop_cons_of_getElem? _ _ _ hy]
    unfold lex_compare_spec
    unfold compare_loop
    rw [load_eq, hx, hy]
    by_cases h1 : x > y
    · exact ⟨some 1, by simp only [if_pos h1], by rw [if_pos h1]; rfl⟩
    · by_cases h2 : x < y
      · exact ⟨some (-1), by simp only [if_neg h1, if_pos h2],
          by rw [if_neg h1, if_pos h2]; rfl⟩
      · exact ⟨r, by simp only [if_neg h1, if_neg h2]; exact hr,
          by rw [if_neg h1, if_neg h2]; exact hv⟩

/-- The value sstr_compare returns is the one the specification gives. -/
theorem compare_eq_spec (s : Sstr) (b : List Int) (hlen : s.len ≤ s.data.length) :
    sstr_compare s b b.length = some (lex_compare_spec (content s) b) := by
  obtain ⟨r, hr, hv⟩ := compare_loop_spec s.data b s.len hlen (min s.len b.length) 0
    (by omega)
  rw [List.drop_zero, List.drop_zero] at hv
  have hmin : (if s.len < b.length then s.len else b.length) = min s.len b.length := by
    by_cases h : s.len < b.length
    · rw [if_pos h]; omega
    · rw [if_neg h]; omega
  unfold sstr_compare content
  simp only [hmin, hr]
  rw [← hv]
  cases r with
  | some v => rfl
  | none =>
    simp only [Option.getD_none]
    by_cases h1 : s.len > b.length
    · simp only [if_pos h1]
    · simp only [if_neg h1]
      by_cases h2 : b.length > s.len
      · simp only [if_pos h2]
      · simp only [if_neg h2]

/-- C8. For a buffer with content a and a byte run b (either may hold zero bytes), compare
returns -1, 0 or 1 according to the byte-wise lexicographic order, a proper prefix being
the smaller run: -1 exactly when a is below b, 1 exactly when b is below a, and 0 exactly
when the two runs are equal.  The content lies inside the allocation. -/
theorem compare_lexicographic (s : Sstr) (b : List Int) (hlen : s.len ≤ s.data.length) :
    ∃ r, sstr_compare s b b.length = some r ∧ (r = -1 ∨ r = 0 ∨ r = 1) ∧
      (r = -1 ↔ List.Lex (· < ·) (content s) b) ∧
      (r = 0 ↔ content s = b) ∧
      (r = 1 ↔ List.Lex (· < ·) b (content s)) :=
  ⟨_, compare_eq_spec s b hlen, lex_compare_spec_values _ _, lex_compare_spec_lt _ _,
    lex_compare_spec_eq _ _, lex_compare_spec_gt _ _⟩

/-- C8 (witness). The buffer "a", 0, "b" against the run "a", 0, "c": the zero byte does
not end the comparison. -/
theorem compare_lexicographic_witness :
    ∃ r, sstr_compare ⟨4, 3, [97, 0, 98, 0]⟩ [97, 0, 99] 3 = some r ∧
      (r = -1 ∨ r = 0 ∨ r = 1) ∧
      (r = -1 ↔ List.Lex (· < ·) (content ⟨4, 3, [97, 0, 98, 0]⟩) [97, 0, 99]) ∧
      (r = 0 ↔ content ⟨4, 3, [97, 0, 98, 0]⟩ = [97, 0, 99]) ∧
      (r = 1 ↔ List.Lex (· < ·) [97, 0, 99] (content ⟨4, 3, [97, 0, 98, 0]⟩)) :=
  compare_lexicographic ⟨4, 3, [97, 0, 98, 0]⟩ [97, 0, 99] (by decide)

/-! ## Search -/

/-- An occurrence inside the first len bytes of the payload, byte by byte. -/
theorem occurs_at_iff (m a : List Int) (len i : Nat) (hlen : len ≤ m.length)
    (ha : 1 ≤ a.length) :
    occurs_at (m.take len) a i ↔
      i + a.length ≤ len ∧ ∀ t, t < a.length → m[i + t]? = a[t]? := by
  unfold occurs_at
  constructor
  · intro h
    have hl : ((m.take len).drop i).take a.length = a := h
    have hlen2 := congrArg List.length hl
    simp only [List.length_take, List.length_drop] at hlen2
    refine ⟨by omega, fun t ht => ?_⟩
    have h1 := congrArg (fun l => l[t]?) hl
    simp only at h1
    rw [List.getElem?_take_of_lt ht, List.getElem?_drop,
      List.getElem?_take_of_lt (by omega)] at h1
    exact h1
  · rintro ⟨hb, hm⟩
    apply List.ext_getElem?
    intro t
    by_cases ht : t < a.length
    · rw [List.getElem?_take_of_lt ht, List.getElem?_drop,
        List.getElem?_take_of_lt (by omega)]
      exact hm t ht
    · rw [List.getElem?_take_eq_none (by omega), List.getElem?_eq_none (by omega)]

/-- The inner loop of the search at position i, entered at needle index j with the
remaining iterations, tells whether the bytes from j on match. -/
theorem find_inner_spec (m a : List Int) (i : Nat) (hb : i + a.length ≤ m.length)
    (hsz : i + a.length < SIZE_MOD) (k : Nat) :
    ∀ j, j + (k + 1) = a.length →
      ∃ r, find_inner m a i a.length j (k + 1) = some r ∧
        (r = true ↔ ∀ t, j ≤ t → t < a.length → m[i + t]? = a[t]?) := by
  induction k with
  | zero =>
    intro j hj
    obtain ⟨x, hx⟩ := getElem?_some_of_lt m (i + j) (by omega)
    obtain ⟨y, hy⟩ := getElem?_some_of_lt a j (by omega)
    have h1 : sz_add i j = i + j := sz_add_eq _ _ (by omega)
    have h2 : sz_add j 1 = a.length := by rw [sz_add_eq _ _ (by omega)]; omega
    unfold find_inner
    rw [load_eq, h1, hx, hy]
    by_cases hxy : x = y
    · refine ⟨true, by simp only [hxy, ne_eq, not_true_eq_false, if_false, h2, if_true], ?_⟩
      refine ⟨fun _ t ht1 ht2 => ?_, fun _ => rfl⟩
      have : t = j := by omega
      subst this
      rw [hx, hy, hxy]
    · refine ⟨false, by simp only [ne_eq, hxy, not_false_eq_true, if_true], ?_⟩
      refine ⟨fun h => absurd h (by decide), fun h => ?_⟩
      have := h j (Nat.le_refl _) (by omega)
      rw [hx, hy] at this
      exact absurd (Option.some.inj this) hxy
  | succ k ih =>
    intro j hj
    obtain ⟨x, hx⟩ := getElem?_some_of_lt m (i + j) (by omega)
    obtain ⟨y, hy⟩ := getElem?_some_of_lt a j (by omega)
    have h1 : sz_add i j = i + j := sz_add_eq _ _ (by omega)
    have h2 : sz_add j 1 ≠ a.length := by rw [sz_add_eq _ _ (by omega)]; omega
    obtain ⟨r, hr, hv⟩ := ih (j + 1) (by omega)
    unfold find_inner
    rw [load_eq, h1, hx, hy]
    by_cases hxy : x = y
    · refine ⟨r, by simp only [hxy, ne_eq, not_true_eq_false, if_false, h2]; exact hr, ?_⟩
      rw [hv]
      constructor
      · intro h t ht1 ht2
        by_cases htj : t = j
        · subst htj; rw [hx, hy, hxy]
        · exact h t (by omega) ht2
      · intro h t ht1 ht2
        exact h t (by omega) ht2
    · refine ⟨false, by simp only [ne_eq, hxy, not_false_eq_true, if_true], ?_⟩
      refine ⟨fun h => absurd h (by decide), fun h => ?_⟩
      have := h j (Nat.le_refl _) (by omega)
      rw [hx, hy] at this
      exact absurd (Option.some.inj this) hxy

/-- One round of the outer loop of the search at a position where the needle fits: it
returns the position when the needle occurs there and goes on otherwise. -/
theorem find_outer_step (m a : List Int) (len i k : Nat) (hlen : len ≤ m.length)
    (ha : 1 ≤ a.length) (hi : i + a.length ≤ len) (hsz : len < SIZE_MOD) :
    (occurs_at (m.take len) a i → find_outer m a a.length i (k + 1) = some (some i)) ∧
    (¬ occurs_at (m.take len) a i →
      find_outer m a a.length i (k + 1) = find_outer m a a.length (i + 1) k) := by
  obtain ⟨x, hx⟩ := getElem?_some_of_lt m i (by omega)
  obtain ⟨y, hy⟩ := getElem?_some_of_lt a 0 (by omega)
  obtain ⟨r, hr, hv⟩ := find_inner_spec m a i (by omega) (by omega) (a.length - 1) 0
    (by omega)
  have hfuel : a.length - 1 + 1 = a.length := by omega
  rw [hfuel] at hr
  have hocc := occurs_at_iff m a len i hlen ha
  have hall : (∀ t, 0 ≤ t → t < a.length → m[i + t]? = a[t]?) ↔
      occurs_at (m.take len) a i := by
    rw [hocc]
    exact ⟨fun h => ⟨hi, fun t ht => h t (Nat.zero_le _) ht⟩, fun h t _ ht => h.2 t ht⟩
  rw [hall] at hv
  constructor
  · intro ho
    have hxy : x = y := by
      have := (hocc.mp ho).2 0 (by omega)
      rw [Nat.add_zero, hx, hy] at this
      exact Option.some.inj this
    have hrt : r = true := hv.mpr ho
    unfold find_outer
    rw [load_eq, hx, hy]
    simp only [hxy, if_true, hr, hrt]
  · intro ho
    rw [find_outer, load_eq, hx, hy]
    by_cases hxy : x = y
    · have hrf : r = false := by
        cases r with
        | false => rfl
        | true => exact absurd (hv.mp rfl) ho
      simp only [hxy, if_true, hr, hrf]
    · simp only [hxy, if_false]

/-- The outer loop of the search from position i on returns the least position at or
after i where the needle occurs, and nothing when there is none. -/
theorem find_outer_spec (m a : List Int) (len : Nat) (hlen : len ≤ m.length)
    (ha : 1 ≤ a.length) (hal : a.length ≤ len) (hsz : len < SIZE_MOD) (k : Nat) :
    ∀ i, i + k = len - a.length + 1 →
      (∀ p, i ≤ p → occurs_at (m.take len) a p →
        (∀ q, i ≤ q → q < p → ¬ occurs_at (m.take len) a q) →
        find_outer m a a.length i k = some (some p)) ∧
      ((∀ p, i ≤ p → ¬ occurs_at (m.take len) a p) →
        find_outer m a a.length i k = some none) := by
  induction k with
  | zero =>
    intro i hi
    refine ⟨fun p hp ho _ => ?_, fun _ => rfl⟩
    have := ((occurs_at_iff m a len p hlen ha).mp ho).1
    omega
  | succ k ih =>
    intro i hi
    obtain ⟨hyes, hno⟩ := find_outer_step m a len i k hlen ha (by omega) hsz
    obtain ⟨ih1, ih2⟩ := ih (i + 1) (by omega)
    constructor
    · intro p hp ho hmin
      by_cases hpi : p = i
      · subst hpi; exact hyes ho
      · have hni : ¬ occurs_at (m.take len) a i := hmin i (Nat.le_refl _) (by omega)
        rw [hno hni]
        exact ih1 p (by omega) ho (fun q hq1 hq2 => hmin q (by omega) hq2)
    · intro hnone
      rw [hno (hnone i (Nat.le_refl _))]
      exact ih2 (fun p hp => hnone p (by omega))

/-- C6. For a buffer with content s of length L, any start, and a non-empty needle a with
len(a) ≤ L: if the needle occurs at some index at or after start, find returns 0 and sets
the out-index to the least such index; if it occurs at none, find returns 1 (NotFound) and
the out-index keeps its value.  The content lies inside the allocation and L is a size
word. -/
theorem find_first_occurrence (s : Sstr) (index start : Nat) (a : List Int)
    (hlen : s.len ≤ s.data.length) (hsz : s.len < 2 ^ 64) (ha : a ≠ [])
    (hal : a.length ≤ s.len) :
    (∀ i, start ≤ i → occurs_at (content s) a i →
      (∀ j, start ≤ j → j < i → ¬ occurs_at (content s) a j) →
      sstr_find s index start a a.length = some (0, i)) ∧
    ((∀ i, start ≤ i → ¬ occurs_at (content s) a i) →
      sstr_find s index start a a.length = some (1, index)) := by
  have ha1 : 1 ≤ a.length := by
    cases a with
    | nil => exact absurd rfl ha
    | cons _ _ => simp
  have hsz2 : s.len < SIZE_MOD := by unfold SIZE_MOD; omega
  have hsub : sz_sub s.len a.length = s.len - a.length := sz_sub_eq _ _ hal hsz2
  have hadd : sz_add (s.len - a.length) 1 = s.len - a.length + 1 :=
    sz_add_eq _ _ (by omega)
  unfold content
  by_cases hst : start > s.len - a.length
  · have hres : sstr_find s index start a a.length = some (1, index) := by
      unfold sstr_find
      simp only [hsub, if_pos hst]
    refine ⟨fun i hi ho _ => ?_, fun _ => hres⟩
    have := ((occurs_at_iff s.data a s.len i hlen ha1).mp ho).1
    omega
  · obtain ⟨h1, h2⟩ := find_outer_spec s.data a s.len hlen ha1 hal hsz2
      (s.len - a.length + 1 - start) start (by omega)
    constructor
    · intro i hi ho hmin
      unfold sstr_find
      simp only [hsub, if_neg hst, hadd, h1 i hi ho hmin]
    · intro hnone
      unfold sstr_find
      simp only [hsub, if_neg hst, hadd, h2 hnone]

/-- C6 (witness). The needle "llo" in "hello" from start 0: found at index 2. -/
theorem find_first_occurrence_witness :
    sstr_find ⟨8, 5, [104, 101, 108, 108, 111, 0, 0, 0]⟩ 99 0 [108, 108, 111] 3 =
      some (0, 2) :=
  (find_first_occurrence ⟨8, 5, [104, 101, 108, 108, 111, 0, 0, 0]⟩ 99 0 [108, 108, 111]
    (by decide) (by decide) (by decide) (by decide)).1 2 (by decide) (by decide)
    (fun j _ hj => by
      have hj2 : j = 0 ∨ j = 1 := by omega
      rcases hj2 with h | h <;> subst h <;> decide)

/-! ## Evaluations at concrete inputs -/

/-- C1. The invariant length ≤ capacity is broken by concat: on the buffer built by
from("abc", 3) (capacity 8, length 3) a concat of six bytes requests
cap - len - len_a + 1 = 0 further bytes, so the payload stays at 8 bytes while bytes are
written up to index 8 and length 9 is recorded; the model stops at the first write outside
the payload.  The sibling prepend, on the same input, grows to capacity 16 and ends with
length 9. -/
theorem concat_breaks_len_le_cap :
    sstr_from heap_ok [97, 98, 99, 0] 3 = some ⟨8, 3, [97, 98, 99, 0, 0, 0, 0, 0]⟩ ∧
    sz_add (sz_sub (sz_sub 8 3) 6) 1 = 0 ∧
    sstr_concat heap_ok ⟨8, 3, [97, 98, 99, 0, 0, 0, 0, 0]⟩
      [100, 101, 102, 103, 104, 105] 6 = none ∧
    sstr_prepend heap_ok ⟨8, 3, [97, 98, 99, 0, 0, 0, 0, 0]⟩
      [100, 101, 102, 103, 104, 105] 6 =
      some (0, ⟨16, 9, [100, 101, 102, 103, 104, 105, 97, 98, 99, 0, 0, 0, 0, 0, 0, 0]⟩) := by
  decide

/-- C2 (counterexample). The run 'a', 0, 'b' of length 3, followed by a zero byte, gives a
buffer of length 2 with content 'a', 'b': the zero byte inside the run is skipped.  The
run 'a', 'b' of length 2, followed in memory by 'c', gives a buffer of length 3: the byte
behind the run is pushed too. -/
theorem from_skips_zero_byte :
    sstr_from heap_ok [97, 0, 98, 0] 3 = some ⟨8, 2, [97, 98, 0, 0, 0, 0, 0, 0]⟩ ∧
    (¬ ∃ s, sstr_from heap_ok [97, 0, 98, 0] 3 = some s ∧ s.len = 3 ∧
      content s = [97, 0, 98]) ∧
    sstr_from heap_ok [97, 98, 99, 0] 2 = some ⟨4, 3, [97, 98, 99, 0]⟩ := by
  have h : sstr_from heap_ok [97, 0, 98, 0] 3 = some ⟨8, 2, [97, 98, 0, 0, 0, 0, 0, 0]⟩ := by
    decide
  refine ⟨h, ?_, by decide⟩
  rintro ⟨s, hs, hl, -⟩
  rw [h] at hs
  cases hs
  exact absurd hl (by decide)

/-- C2 (witness). The run "hello" followed by a zero byte. -/
theorem from_content_witness :
    ∃ s, sstr_from heap_ok ([104, 101, 108, 108, 111] ++ 0 :: []) 5 = some s ∧ s.len = 5 ∧
      content s = [104, 101, 108, 108, 111] :=
  from_content heap_ok [104, 101, 108, 108, 111] [] (by decide) (by decide) (fun _ => rfl)

/-- C3 (witness). Insertion of "XY" at index 1 into "ab" held in four payload bytes. -/
theorem insert_content_witness :
    ∃ s1, sstr_insert heap_ok ⟨4, 2, [97, 98, 0, 0]⟩ 1 [88, 89] 2 = some (0, s1) ∧
      s1.len = 4 ∧ content s1 = [97, 88, 89, 98] :=
  insert_content heap_ok ⟨4, 2, [97, 98, 0, 0]⟩ 1 [88, 89] (by decide) (by decide)
    (by decide) (by decide) (by decide) (fun _ => rfl)

/-- C4. On the buffer built by from("ab", 2) (capacity 4, length 2) a concat of three
bytes requests cap - len - len_a + 1 = 0 further bytes and then writes past the four
payload bytes: no buffer with content "abcde" results. -/
theorem concat_writes_past_payload :
    sstr_from heap_ok [97, 98, 0] 2 = some ⟨4, 2, [97, 98, 0, 0]⟩ ∧
    sz_add (sz_sub (sz_sub 4 2) 3) 1 = 0 ∧
    sstr_concat heap_ok ⟨4, 2, [97, 98, 0, 0]⟩ [99, 100, 101] 3 = none := by
  decide

/-- C5. On the buffer built by from("ab", 2), insert of "XY" at index 1 fills the four
payload bytes; the following remove(1, 2) moves len - offset = 3 bytes from offset 3 and
zeroes two bytes from offset len + n = 6, both outside the payload. -/
theorem insert_remove_leaves_payload :
    sstr_from heap_ok [97, 98, 0] 2 = some ⟨4, 2, [97, 98, 0, 0]⟩ ∧
    sstr_insert heap_ok ⟨4, 2, [97, 98, 0, 0]⟩ 1 [88, 89] 2 =
      some (0, ⟨4, 4, [97, 88, 89, 98]⟩) ∧
    sstr_remove ⟨4, 4, [97, 88, 89, 98]⟩ 1 2 = none := by
  decide

/-- C7. On the buffer built by from("abcdXY", 6) (capacity 8, length 6) the needle "XY"
is found at index 4, and replace by "Z" moves len - len_a = 4 bytes from offset 6, which
reads past the eight payload bytes.  On the buffer "abcde" grown by insert, whose bytes
behind the content are what the allocator handed out, replace of "e" by the empty run
returns 0 and leaves length 4, but the vacated byte at index 4 holds the byte that stood
behind the content, not zero: remove zeroes the byte at len + n instead. -/
theorem replace_reads_past_payload :
    sstr_from heap_ok [97, 98, 99, 100, 88, 89, 0] 6 =
      some ⟨8, 6, [97, 98, 99, 100, 88, 89, 0, 0]⟩ ∧
    sstr_find ⟨8, 6, [97, 98, 99, 100, 88, 89, 0, 0]⟩ 0 0 [88, 89] 2 = some (0, 4) ∧
    sstr_replace heap_ok ⟨8, 6, [97, 98, 99, 100, 88, 89, 0, 0]⟩ 0 [88, 89] 2 [90] 1 =
      none ∧
    sstr_insert heap_junk ⟨4, 2, [97, 98, 0, 0]⟩ 2 [99, 100, 101] 3 =
      some (0, ⟨8, 5, [97, 98, 99, 100, 101, 7, 7, 7]⟩) ∧
    sstr_replace heap_junk ⟨8, 5, [97, 98, 99, 100, 101, 7, 7, 7]⟩ 0 [101] 1 [] 0 =
      some (0, ⟨8, 4, [97, 98, 99, 100, 7, 7, 0, 7]⟩) := by
  decide

/-- C9. A push into the buffer built by new(0) (capacity 1, length 0) writes the zero
byte at index 1, outside the payload; so does the second push after from("ab", 2), at
length 3 of capacity 4.  No pop can follow. -/
theorem push_writes_past_payload :
    sstr_new heap_ok 0 = some ⟨1, 0, [0]⟩ ∧
    sstr_push heap_ok ⟨1, 0, [0]⟩ 97 = none ∧
    sstr_push heap_ok ⟨4, 2, [97, 98, 0, 0]⟩ 99 = some (1, ⟨4, 3, [97, 98, 99, 0]⟩) ∧
    sstr_push heap_ok ⟨4, 3, [97, 98, 99, 0]⟩ 100 = none := by
  decide

/-- C10. On the buffer built by from("a", 1), whose last byte is not whitespace,
trim_right leaves length 0 and a zeroed payload: the scan stops before index 0 and the
whole content is removed. -/
theorem trim_right_drops_single_byte :
    sstr_from heap_ok [97, 0] 1 = some ⟨4, 1, [97, 0, 0, 0]⟩ ∧
    isspace 97 = false ∧
    sstr_trim_right ⟨4, 1, [97, 0, 0, 0]⟩ = some ⟨4, 0, [0, 0, 0, 0]⟩ := by
  decide

/-! ## The power-of-two rounding -/

theorem pow2_eq_smear (n : Nat) :
    pow2 n = sz_add (smear (smear (smear (smear (smear (smear (sz_sub n 1) 1) 2) 4) 8) 16) 32)
      1 := rfl

/-- One smearing step doubles the window of bits of x that each bit of y collects. -/
theorem smear_window (x y w : Nat)
    (hy : ∀ i, y.testBit i = true ↔ ∃ j, i ≤ j ∧ j < i + w ∧ x.testBit j = true) :
    ∀ i, (smear y w).testBit i = true ↔
      ∃ j, i ≤ j ∧ j < i + (w + w) ∧ x.testBit j = true := by
  intro i
  unfold smear
  rw [Nat.testBit_or, Nat.testBit_shiftRight, Bool.or_eq_true, hy i, hy (w + i)]
  constructor
  · rintro (⟨j, h1, h2, h3⟩ | ⟨j, h1, h2, h3⟩)
    · exact ⟨j, h1, by omega, h3⟩
    · exact ⟨j, by omega, by omega, h3⟩
  · rintro ⟨j, h1, h2, h3⟩
    by_cases hj : j < i + w
    · exact Or.inl ⟨j, h1, hj, h3⟩
    · exact Or.inr ⟨j, by omega, by omega, h3⟩

/-- The six smearing steps of pow2 turn a word m below 2^64 into 2^(size m) - 1. -/
theorem smear_all (m : Nat) (hm : m < 2 ^ 64) :
    smear (smear (smear (smear (smear (smear m 1) 2) 4) 8) 16) 32 = 2 ^ Nat.size m - 1 := by
  have w1 : ∀ i, m.testBit i = true ↔ ∃ j, i ≤ j ∧ j < i + 1 ∧ m.testBit j = true := by
    intro i
    constructor
    · intro h; exact ⟨i, Nat.le_refl _, by omega, h⟩
    · rintro ⟨j, h1, h2, h3⟩
      have : j = i := by omega
      subst this; exact h3
  have w2 := smear_window m _ 1 w1
  have w4 := smear_window m _ 2 w2
  have w8 := smear_window m _ 4 w4
  have w16 := smear_window m _ 8 w8
  have w32 := smear_window m _ 16 w16
  have w64 := smear_window m _ 32 w32
  apply Nat.eq_of_testBit_eq
  intro i
  rw [Nat.testBit_two_pow_sub_one]
  by_cases hi : i < Nat.size m
  · have h2 : 2 ^ i ≤ m := Nat.lt_size.mp hi
    obtain ⟨j, hj1, hj2⟩ := Nat.ge_two_pow_implies_high_bit_true h2
    have hj3 : j < 64 := by
      by_contra hc
      have h64 : 2 ^ 64 ≤ 2 ^ j := Nat.pow_le_pow_right (by decide) (by omega)
      have := Nat.testBit_lt_two_pow (Nat.lt_of_lt_of_le hm h64)
      rw [this] at hj2
      exact absurd hj2 (by decide)
    rw [decide_eq_true hi]
    exact (w64 i).mpr ⟨j, hj1, by omega, hj2⟩
  · rw [decide_eq_false hi]
    cases hb : (smear (smear (smear (smear (smear (smear m 1) 2) 4) 8) 16) 32).testBit i with
    | false => rfl
    | true =>
      obtain ⟨j, hj1, -, hj3⟩ := (w64 i).mp hb
      have h1 : 2 ^ j ≤ m := Nat.testBit_implies_ge hj3
      have h2 : 2 ^ i ≤ 2 ^ j := Nat.pow_le_pow_right (by decide) hj1
      exact absurd (Nat.lt_size.mpr (Nat.le_trans h2 h1)) hi

/-- The value of pow2 on 1 .. 2^63: two to the number of bits of n - 1. -/
theorem pow2_eq (n : Nat) (h1 : 1 ≤ n) (h2 : n ≤ 2 ^ 63) : pow2 n = 2 ^ Nat.size (n - 1) := by
  have hm : sz_sub n 1 = n - 1 := sz_sub_eq n 1 h1 (by unfold SIZE_MOD; omega)
  have hs : Nat.size (n - 1) ≤ 63 := Nat.size_le.mpr (by omega)
  have hp : 2 ^ Nat.size (n - 1) ≤ 2 ^ 63 := Nat.pow_le_pow_right (by decide) hs
  have hpos : 0 < 2 ^ Nat.size (n - 1) := Nat.pow_pos (by decide)
  rw [pow2_eq_smear, hm, smear_all (n - 1) (by omega), sz_add_eq _ _ (by unfold SIZE_MOD; omega)]
  omega

/-- On 1 .. 2^63 pow2 yields the smallest power of two that is at least n. -/
theorem pow2_is_next_pow2 (n : Nat) (h1 : 1 ≤ n) (h2 : n ≤ 2 ^ 63) :
    is_next_pow2 n (pow2 n) := by
  rw [pow2_eq n h1 h2]
  refine ⟨⟨_, rfl⟩, ?_, fun j hj => ?_⟩
  · have := Nat.lt_size_self (n - 1)
    omega
  · exact Nat.pow_le_pow_right (by decide) (Nat.size_le.mpr (by omega))

/-! ## Construction, growth and status codes -/

/-- C18. For a capacity hint c with c + 1 ≤ 2^63, new(c) returns a buffer of length 0 whose
payload bytes are all zero and whose capacity is the smallest power of two that is at
least c + 1.  The allocator grants the request. -/
theorem new_spec (h : Heap) (n : Nat) (hn : n + 1 ≤ 2 ^ 63) (hg : ∀ k, h.grant k = true) :
    ∃ s, sstr_new h n = some s ∧ s.len = 0 ∧ s.data = List.replicate s.cap 0 ∧
      is_next_pow2 (n + 1) s.cap :=
  ⟨_, sstr_new_eq h n hn hg, rfl, rfl, pow2_is_next_pow2 (n + 1) (by omega) hn⟩

/-- C18 (witness). The hint 4: capacity 8, the smallest power of two that is at least 5. -/
theorem new_spec_witness :
    (∃ s, sstr_new heap_ok 4 = some s ∧ s.len = 0 ∧ s.data = List.replicate s.cap 0 ∧
      is_next_pow2 (4 + 1) s.cap) ∧
    sstr_new heap_ok 4 = some ⟨8, 0, [0, 0, 0, 0, 0, 0, 0, 0]⟩ :=
  ⟨new_spec heap_ok 4 (by decide) (fun _ => rfl), by decide⟩

/-- A reserve of a non-zero amount reallocates to pow2 (cap + additional) payload bytes. -/
theorem reserve_grow (h : Heap) (s : Sstr) (additional t : Nat) (ha : additional ≠ 0)
    (ht : sz_add s.cap additional = t) (h1 : 1 ≤ t) (h2 : t ≤ 2 ^ 63)
    (hg : ∀ k, h.grant k = true) :
    sstr_reserve h s additional = (0, ⟨pow2 t, s.len, resize h s.data (pow2 t)⟩) := by
  obtain ⟨-, hp2⟩ := pow2_bounds t h1 h2
  have h4 : sz_add 16 (pow2 t) - 16 = pow2 t := by
    rw [sz_add_eq _ _ (by unfold SIZE_MOD; omega)]; omega
  unfold sstr_reserve
  rw [if_neg ha]
  simp only [ht, hg, if_true, h4]

/-- C16 (amended). For a buffer with length ≤ capacity, reserve returns 0 with length and
content unchanged; the capacity afterwards is the old capacity when additional is 0, and
the smallest power of two that is at least old capacity + additional otherwise; in both
cases it is at least length + additional.  The allocation has cap payload bytes, sizes
stay below 2^63 and the allocator grants the request. -/
theorem reserve_spec (h : Heap) (s : Sstr) (additional : Nat)
    (hdata : s.data.length = s.cap) (hlen : s.len ≤ s.cap)
    (hsize : s.cap + additional ≤ 2 ^ 63) (hg : ∀ k, h.grant k = true) :
    ∃ s1, sstr_reserve h s additional = (0, s1) ∧ s1.len = s.len ∧
      content s1 = content s ∧
      (additional = 0 → s1.cap = s.cap) ∧
      (additional ≠ 0 → is_next_pow2 (s.cap + additional) s1.cap) ∧
      s.len + additional ≤ s1.cap := by
  by_cases ha : additional = 0
  · subst ha
    refine ⟨s, ?_, rfl, rfl, fun _ => rfl, fun hne => absurd rfl hne, by omega⟩
    unfold sstr_reserve
    rw [if_pos rfl]
  · have ht : sz_add s.cap additional = s.cap + additional :=
      sz_add_eq _ _ (by unfold SIZE_MOD; omega)
    obtain ⟨hp1, -⟩ := pow2_bounds (s.cap + additional) (by omega) hsize
    refine ⟨_, reserve_grow h s additional _ ha ht (by omega) hsize hg, rfl, ?_,
      fun h0 => absurd h0 ha, fun _ => pow2_is_next_pow2 _ (by omega) hsize, ?_⟩
    · unfold content
      exact resize_take h s.data _ s.len (by omega) (by omega)
    · show s.len + additional ≤ pow2 (s.cap + additional)
      omega

/-- C16 (witness). A buffer of capacity 4 and length 4, reserve of 1. -/
theorem reserve_spec_witness :
    ∃ s1, sstr_reserve heap_ok ⟨4, 4, [97, 98, 99, 100]⟩ 1 = (0, s1) ∧ s1.len = 4 ∧
      content s1 = content ⟨4, 4, [97, 98, 99, 100]⟩ ∧
      ((1 : Nat) = 0 → s1.cap = 4) ∧
      ((1 : Nat) ≠ 0 → is_next_pow2 (4 + 1) s1.cap) ∧
      4 + 1 ≤ s1.cap :=
  reserve_spec heap_ok ⟨4, 4, [97, 98, 99, 100]⟩ 1 (by decide) (by decide) (by decide)
    (fun _ => rfl)

/-- C16 (counterexample). A buffer of capacity 8 and length 2 already has room for one
more byte, yet reserve of 1 is no no-op: the capacity becomes 16. -/
theorem reserve_grows_when_sufficient :
    2 + 1 ≤ 8 ∧
    sstr_reserve heap_ok ⟨8, 2, [97, 98, 0, 0, 0, 0, 0, 0]⟩ 1 =
      (0, ⟨16, 2, [97, 98, 0, 0, 0, 0, 0, 0, 0, 0, 0, 0, 0, 0, 0, 0]⟩) := by
  decide

/-- C15 (amended). For an index beyond the length, insert of a non-empty run returns 1
and leaves the buffer unchanged; insert of the empty run returns 0 and leaves the buffer
unchanged. -/
theorem insert_index_beyond_length (h : Heap) (s : Sstr) (index : Nat) (x : List Int)
    (hidx : index > s.len) :
    (x ≠ [] → sstr_insert h s index x x.length = some (1, s)) ∧
    (x = [] → sstr_insert h s index x x.length = some (0, s)) := by
  constructor
  · intro hx
    have hx0 : x.length ≠ 0 := fun h0 => hx (List.length_eq_zero.mp h0)
    unfold sstr_insert
    simp only [if_neg hx0, if_pos hidx]
  · intro hx
    subst hx
    unfold sstr_insert
    simp only [List.length_nil, if_true]

/-- C15 (witness). Index 5 in a buffer of length 2. -/
theorem insert_index_beyond_length_witness :
    sstr_insert heap_ok ⟨4, 2, [97, 98, 0, 0]⟩ 5 [88] 1 =
      some (1, ⟨4, 2, [97, 98, 0, 0]⟩) :=
  (insert_index_beyond_length heap_ok ⟨4, 2, [97, 98, 0, 0]⟩ 5 [88] (by decide)).1
    (by decide)

/-- C15 (counterexample). With the empty run, insert at index 5 of a buffer of length 2
returns 0, not the failure code. -/
theorem insert_empty_run_succeeds :
    sstr_insert heap_ok ⟨4, 2, [97, 98, 0, 0]⟩ 5 [] 0 = some (0, ⟨4, 2, [97, 98, 0, 0]⟩) := by
  decide

/-- C11. On the buffer built by from("   a", 4) (capacity 8, length 4) trim_left finds
three leading whitespace bytes and calls remove(0, 3), which zeroes three bytes from
offset len + n = 7, past the eight payload bytes.  With two leading bytes the same call
stays inside the payload and leaves "ab". -/
theorem trim_left_writes_past_payload :
    sstr_from heap_ok [32, 32, 32, 97, 0] 4 = some ⟨8, 4, [32, 32, 32, 97, 0, 0, 0, 0]⟩ ∧
    sstr_trim_left ⟨8, 4, [32, 32, 32, 97, 0, 0, 0, 0]⟩ = none ∧
    sstr_trim_left ⟨8, 4, [32, 32, 97, 98, 0, 0, 0, 0]⟩ =
      some ⟨8, 2, [97, 98, 0, 0, 0, 0, 0, 0]⟩ := by
  decide

/-- C13. On the buffer "ab" (capacity 4, length 2) remove(0, 3), with n above the length,
zeroes the content and leaves the length at 2. -/
theorem remove_beyond_length_keeps_len :
    sstr_remove ⟨4, 2, [97, 98, 0, 0]⟩ 0 3 = some ⟨4, 2, [0, 0, 0, 0]⟩ := by
  decide

/-- C14. On the buffer "ab" (capacity 4, length 2) with a needle of four bytes the guard
start > len - len_a compares with the wrapped difference 2^64 - 2 and lets the scan run:
for the needle "xyzw" it reads on past the payload, and for the needle 'a', 'b', 0, 0 it
matches the zero bytes behind the content and returns 0 with index 0.  A needle of three
bytes and a start that leaves no room are answered with 1. -/
theorem find_long_needle_not_rejected :
    sz_sub 2 4 = 18446744073709551614 ∧
    sstr_find ⟨4, 2, [97, 98, 0, 0]⟩ 9 0 [120, 121, 122, 119] 4 = none ∧
    sstr_find ⟨4, 2, [97, 98, 0, 0]⟩ 9 0 [97, 98, 0, 0] 4 = some (0, 0) ∧
    sstr_find ⟨4, 2, [97, 98, 0, 0]⟩ 9 0 [97, 98, 99] 3 = some (1, 9) ∧
    sstr_find ⟨4, 2, [97, 98, 0, 0]⟩ 9 1 [97, 98] 2 = some (1, 9) := by
  decide

/-- C19. The buffer built by from("ab", 2) has capacity 4, length 2 and a zero byte at
index 2.  Insert of "XY" at index 1 leaves length 4 = capacity: no byte at index length
lies inside the payload.  Insert of "cde" at the end, with an allocator that hands out
non-zero bytes, grows to capacity 8 and leaves the byte 7 at index length = 5; pad_left
does the same.  The sibling pad_right writes the zero byte behind the new content. -/
theorem insert_drops_terminator :
    sstr_from heap_ok [97, 98, 0] 2 = some ⟨4, 2, [97, 98, 0, 0]⟩ ∧
    sstr_insert heap_ok ⟨4, 2, [97, 98, 0, 0]⟩ 1 [88, 89] 2 =
      some (0, ⟨4, 4, [97, 88, 89, 98]⟩) ∧
    sstr_insert heap_junk ⟨4, 2, [97, 98, 0, 0]⟩ 2 [99, 100, 101] 3 =
      some (0, ⟨8, 5, [97, 98, 99, 100, 101, 7, 7, 7]⟩) ∧
    sstr_pad_left heap_junk ⟨4, 2, [97, 98, 0, 0]⟩ 99 3 =
      some (0, ⟨8, 5, [99, 99, 99, 97, 98, 7, 7, 7]⟩) ∧
    sstr_pad_right heap_junk ⟨4, 2, [97, 98, 0, 0]⟩ 99 3 =
      some (0, ⟨8, 5, [97, 98, 99, 99, 99, 0, 7, 7]⟩) := by
  decide

/-- C20. On the buffer "ab" (capacity 4, length 2) the push of 'c' appends the byte and
returns 1, the code the header documents for failure. -/
theorem push_success_returns_one :
    sstr_push heap_ok ⟨4, 2, [97, 98, 0, 0]⟩ 99 = some (1, ⟨4, 3, [97, 98, 99, 0]⟩) := by
  decide

/-! ## Shrinking -/

/-- The halving loop, started on a power of two with enough iterations, ends on a power
of two whose half is at most the length and which, unless no halving took place, is above
the length. -/
theorem shrink_loop_spec (len : Nat) (fuel : Nat) :
    ∀ k, k ≤ fuel → ∃ j, j ≤ k ∧ shrink_loop len fuel (2 ^ k) = 2 ^ j ∧ 2 ^ j / 2 ≤ len ∧
      (j = k ∨ len < 2 ^ j) := by
  induction fuel with
  | zero =>
    intro k hk
    have hk0 : k = 0 := by omega
    subst hk0
    exact ⟨0, Nat.le_refl _, rfl, by simp, Or.inl rfl⟩
  | succ fuel ih =>
    intro k hk
    unfold shrink_loop
    by_cases hhalf : 2 ^ k / 2 > len
    · rw [if_pos hhalf]
      have hk1 : 1 ≤ k := by
        rcases Nat.eq_zero_or_pos k with h0 | h0
        · subst h0; simp at hhalf
        · exact h0
      have hpow : 2 ^ k / 2 = 2 ^ (k - 1) := by
        have : 2 ^ k = 2 ^ (k - 1) * 2 := by
          rw [← Nat.pow_succ]; congr 1; omega
        omega
      rw [hpow]
      obtain ⟨j, hj1, hj2, hj3, hj4⟩ := ih (k - 1) (by omega)
      refine ⟨j, by omega, hj2, hj3, Or.inr ?_⟩
      rcases hj4 with h | h
      · subst h; omega
      · exact h
    · rw [if_neg hhalf]
      exact ⟨k, Nat.le_refl _, rfl, by omega, Or.inl rfl⟩

/-- A power of two above len whose half is at most len is the smallest power of two that
is at least len + 1. -/
theorem next_pow2_of_half (len j : Nat) (h1 : len < 2 ^ j) (h2 : 2 ^ j / 2 ≤ len) :
    is_next_pow2 (len + 1) (2 ^ j) := by
  refine ⟨⟨j, rfl⟩, by omega, fun i hi => ?_⟩
  by_contra hc
  have hij : i < j := by
    by_contra hji
    exact hc (Nat.pow_le_pow_right (by decide) (by omega))
  have h3 : 2 ^ i ≤ 2 ^ (j - 1) := Nat.pow_le_pow_right (by decide) (by omega)
  have h4 : 2 ^ j = 2 ^ (j - 1) * 2 := by
    rw [← Nat.pow_succ]; congr 1; omega
  omega

/-- C17 (amended). For a buffer whose capacity is a power of two and at least its length,
shrink_to_fit returns 0 with length and content unchanged; when the length is below the
capacity, the capacity afterwards is the smallest power of two that is strictly above the
length (the smallest one that is at least length + 1), and when the length equals the
capacity, the capacity stays.  The allocation has cap payload bytes, the capacity is at
most 2^63 and the allocator grants the request. -/
theorem shrink_to_fit_spec (h : Heap) (s : Sstr) (k : Nat) (hcap : s.cap = 2 ^ k)
    (hdata : s.data.length = s.cap) (hlen : s.len ≤ s.cap) (hsize : s.cap ≤ 2 ^ 63)
    (hg : ∀ n, h.grant n = true) :
    ∃ s1, sstr_shrink_to_fit h s = (0, s1) ∧ s1.len = s.len ∧ content s1 = content s ∧
      (s.len < s.cap → is_next_pow2 (s.len + 1) s1.cap) ∧
      (s.len = s.cap → s1.cap = s.cap) := by
  have hfuel : k ≤ s.cap := by
    rw [hcap]; exact Nat.le_of_lt (Nat.lt_two_pow k)
  obtain ⟨j, hj1, hj2, hj3, hj4⟩ := shrink_loop_spec s.len s.cap k hfuel
  rw [← hcap] at hj2
  have hle : 2 ^ j ≤ s.cap := by
    rw [hcap]; exact Nat.pow_le_pow_right (by decide) hj1
  have hlen2 : s.len ≤ 2 ^ j := by
    rcases hj4 with h1 | h1
    · rw [h1, ← hcap]; exact hlen
    · omega
  have h16 : sz_add 16 (2 ^ j) - 16 = 2 ^ j := by
    rw [sz_add_eq _ _ (by unfold SIZE_MOD; omega)]; omega
  refine ⟨⟨2 ^ j, s.len, resize h s.data (2 ^ j)⟩, ?_, rfl, ?_, ?_, ?_⟩
  · unfold sstr_shrink_to_fit
    simp only [hj2, hg, if_true, h16]
  · unfold content
    exact resize_take h s.data _ s.len (by omega) hlen2
  · intro hlt
    have h1 : s.len < 2 ^ j := by
      rcases hj4 with h1 | h1
      · rw [h1, ← hcap]; exact hlt
      · exact h1
    exact next_pow2_of_half s.len j h1 hj3
  · intro heq
    show 2 ^ j = s.cap
    omega

/-- C17 (witness). Capacity 16 and length 3: the capacity becomes 4. -/
theorem shrink_to_fit_spec_witness :
    ∃ s1, sstr_shrink_to_fit heap_ok ⟨16, 3, 97 :: 98 :: 99 :: List.replicate 13 0⟩ =
        (0, s1) ∧ s1.len = 3 ∧
      content s1 = content ⟨16, 3, 97 :: 98 :: 99 :: List.replicate 13 0⟩ ∧
      (3 < 16 → is_next_pow2 (3 + 1) s1.cap) ∧ (3 = 16 → s1.cap = 16) :=
  shrink_to_fit_spec heap_ok ⟨16, 3, 97 :: 98 :: 99 :: List.replicate 13 0⟩ 4 (by decide)
    (by decide) (by decide) (by decide) (fun _ => rfl)

/-- C17 (counterexample). The buffer built by from("abcd", 4) has capacity 8 and length
4; shrink_to_fit leaves the capacity at 8, and 8 is not the smallest power of two that is
at least 4. -/
theorem shrink_to_fit_keeps_spare_byte :
    sstr_from heap_ok [97, 98, 99, 100, 0] 4 =
      some ⟨8, 4, [97, 98, 99, 100, 0, 0, 0, 0]⟩ ∧
    sstr_shrink_to_fit heap_ok ⟨8, 4, [97, 98, 99, 100, 0, 0, 0, 0]⟩ =
      (0, ⟨8, 4, [97, 98, 99, 100, 0, 0, 0, 0]⟩) ∧
    ¬ is_next_pow2 4 8 := by
  refine ⟨by decide, by decide, fun hn => ?_⟩
  have := hn.2.2 2 (by decide)
  omega

/-! ## Padding -/

/-- The fill loop, for an in-bounds range, succeeds and writes ch to the k bytes from
offset p on. -/
theorem fill_spec (ch : Int) (k : Nat) : ∀ (m : List Int) (p : Nat), p + k ≤ m.length →
    ∃ m1, fill m p ch k = some m1 ∧ m1.length = m.length ∧
      ∀ j, m1[j]? = if p ≤ j ∧ j < p + k then some ch else m[j]? := by
  induction k with
  | zero =>
    intro m p _
    refine ⟨m, rfl, rfl, fun j => ?_⟩
    rw [if_neg (by omega)]
  | succ k ih =>
    intro m p hb
    obtain ⟨m1, hm1, hl1, hp1⟩ := ih (m.set p ch) (p + 1) (by simp; omega)
    refine ⟨m1, ?_, by simpa using hl1, fun j => ?_⟩
    · simp only [fill, store_eq_some m p ch (by omega)]
      exact hm1
    · rw [hp1 j]
      by_cases h1 : p + 1 ≤ j ∧ j < p + 1 + k
      · rw [if_pos h1, if_pos (by omega)]
      · rw [if_neg h1]
        by_cases h2 : j = p
        · subst h2
          rw [if_pos (by omega), List.getElem?_set_self (by omega)]
        · rw [if_neg (by omega), List.getElem?_set_ne (by omega)]

/-- The body of pad_left, with room for the new bytes, puts k copies of ch in front of
the content. -/
theorem pad_left_body_spec (s : Sstr) (ch : Int) (k len : Nat)
    (hroom : len + k ≤ s.data.length) (hsz : len + k < SIZE_MOD) :
    ∃ m2, pad_left_body s ch k len = some (0, ⟨s.cap, len + k, m2⟩) ∧
      m2.length = s.data.length ∧
      m2.take (len + k) = List.replicate k ch ++ s.data.take len := by
  obtain ⟨m1, hm1, hl1, hp1⟩ := shift_down_spec len s.data k 0 (Nat.zero_le _) (by omega)
  obtain ⟨m2, hm2, hl2, hp2⟩ := fill_spec ch k m1 0 (by omega)
  have hshift : shift s.data k 0 len = some m1 := by
    unfold shift; rw [if_neg (by omega)]; exact hm1
  refine ⟨m2, ?_, by omega, ?_⟩
  · simp only [pad_left_body, hshift, hm2, sz_add_eq len k hsz]
  · apply List.ext_getElem?
    intro j
    rw [List.getElem?_take, hp2 j, List.getElem?_append, List.length_replicate]
    by_cases h1 : j < k
    · rw [if_pos (by omega), if_pos (by omega), if_pos h1,
        List.getElem?_replicate_of_lt h1]
    · by_cases h2 : j < len + k
      · rw [if_pos h2, if_neg (by omega), if_neg h1, hp1 j, if_pos (by omega),
          List.getElem?_take_of_lt (by omega), Nat.add_zero]
      · rw [if_neg h2, if_neg h1, List.getElem?_take_eq_none (by omega)]

/-- The body of pad_right, with room for the new bytes and the zero byte, puts k copies
of ch and a zero byte behind the content. -/
theorem pad_right_body_spec (s : Sstr) (ch : Int) (k len : Nat)
    (hroom : len + k + 1 ≤ s.data.length) (hsz : len + k < SIZE_MOD) :
    ∃ m2, pad_right_body s ch k len = some (0, ⟨s.cap, len + k, m2⟩) ∧
      m2.length = s.data.length ∧
      m2.take (len + k) = s.data.take len ++ List.replicate k ch ∧
      m2[len + k]? = some 0 := by
  obtain ⟨m1, hm1, hl1, hp1⟩ := fill_spec ch k s.data len (by omega)
  have hst : store m1 (len + k) 0 = some (m1.set (len + k) 0) :=
    store_eq_some _ _ _ (by omega)
  have hl : (s.data.take len).length = len := by
    rw [List.length_take]; omega
  refine ⟨m1.set (len + k) 0, ?_, by simp; omega, ?_, ?_⟩
  · simp only [pad_right_body, hm1, hst, sz_add_eq len k hsz]
  · apply List.ext_getElem?
    intro j
    rw [List.getElem?_take, List.getElem?_append, hl]
    by_cases h1 : j < len
    · rw [if_pos (by omega), if_pos h1, List.getElem?_set_ne (by omega), hp1 j,
        if_neg (by omega), List.getElem?_take_of_lt h1]
    · rw [if_neg h1]
      by_cases h2 : j < len + k
      · rw [if_pos h2, List.getElem?_set_ne (by omega), hp1 j, if_pos (by omega),
          List.getElem?_replicate_of_lt (by omega)]
      · rw [if_neg h2, List.getElem?_eq_none (by simp; omega)]
  · rw [List.getElem?_set_self (by omega)]

/-- The growth request len + k - cap + 1 of pad_left, pad_right and prepend, made when the
capacity is below len + k + 1, yields a buffer with room for k more bytes and a zero
byte, with length and content unchanged. -/
theorem reserve_deficit (h : Heap) (s : Sstr) (k : Nat) (hdata : s.data.length = s.cap)
    (hlen : s.len ≤ s.cap) (hsize : s.len + k + 1 ≤ 2 ^ 63) (hg : ∀ n, h.grant n = true)
    (hgrow : s.cap < s.len + k + 1) :
    ∃ s1, sstr_reserve h s (sz_add (sz_sub (sz_add s.len k) s.cap) 1) = (0, s1) ∧
      s1.len = s.len ∧ s1.data.length = s1.cap ∧ s.len + k + 1 ≤ s1.cap ∧
      s1.data.take s.len = s.data.take s.len := by
  have hsz : s.len + k < SIZE_MOD := by unfold SIZE_MOD; omega
  have h1 : sz_add s.len k = s.len + k := sz_add_eq _ _ hsz
  have h2 : sz_sub (s.len + k) s.cap = s.len + k - s.cap := sz_sub_eq _ _ (by omega) hsz
  have h3 : sz_add (s.len + k - s.cap) 1 = s.len + k - s.cap + 1 :=
    sz_add_eq _ _ (by unfold SIZE_MOD; omega)
  have h4 : sz_add s.cap (s.len + k - s.cap + 1) = s.len + k + 1 := by
    rw [sz_add_eq _ _ (by unfold SIZE_MOD; omega)]; omega
  obtain ⟨hp1, -⟩ := pow2_bounds (s.len + k + 1) (by omega) hsize
  rw [h1, h2, h3]
  refine ⟨_, reserve_grow h s _ _ (by omega) h4 (by omega) hsize hg, rfl, ?_, hp1, ?_⟩
  · exact resize_length h s.data _
  · exact resize_take h s.data _ s.len (by omega) (by omega)

/-- Padding on the left: pad_left returns 0, leaves length L + k with room for a zero
byte behind it, and the content is k copies of ch followed by the old content. -/
theorem pad_left_spec (h : Heap) (s : Sstr) (ch : Int) (k : Nat)
    (hdata : s.data.length = s.cap) (hlen : s.len ≤ s.cap)
    (hsize : s.len + k + 1 ≤ 2 ^ 63) (hg : ∀ n, h.grant n = true) :
    ∃ s1, sstr_pad_left h s ch k = some (0, s1) ∧ s1.len = s.len + k ∧
      s1.data.length = s1.cap ∧ s.len + k + 1 ≤ s1.cap ∧
      content s1 = List.replicate k ch ++ content s := by
  have hsz : s.len + k < SIZE_MOD := by unfold SIZE_MOD; omega
  have hA : sz_add (sz_add s.len k) 1 = s.len + k + 1 := by
    rw [sz_add_eq s.len k hsz, sz_add_eq _ _ (by unfold SIZE_MOD; omega)]
  by_cases hgrow : s.cap < s.len + k + 1
  · obtain ⟨s1, hres, hl1, hd1, hc1, ht1⟩ := reserve_deficit h s k hdata hlen hsize hg hgrow
    obtain ⟨m2, hb, hl2, ht2⟩ := pad_left_body_spec s1 ch k s.len (by omega) hsz
    refine ⟨⟨s1.cap, s.len + k, m2⟩, ?_, rfl, by rw [hl2]; exact hd1, hc1, ?_⟩
    · unfold sstr_pad_left
      simp only [hA, if_pos hgrow, hres]
      simpa using hb
    · unfold content
      rw [ht2, ht1]
  · obtain ⟨m2, hb, hl2, ht2⟩ := pad_left_body_spec s ch k s.len (by omega) hsz
    refine ⟨⟨s.cap, s.len + k, m2⟩, ?_, rfl, by rw [hl2]; exact hdata,
      Nat.le_of_not_lt hgrow, ?_⟩
    · unfold sstr_pad_left
      simp only [hA, if_neg hgrow]
      exact hb
    · unfold content
      rw [ht2]

/-- Padding on the right: pad_right returns 0, leaves length L + k, the old content
followed by k copies of ch, and a zero byte behind it inside the payload. -/
theorem pad_right_spec (h : Heap) (s : Sstr) (ch : Int) (k : Nat)
    (hdata : s.data.length = s.cap) (hlen : s.len ≤ s.cap)
    (hsize : s.len + k + 1 ≤ 2 ^ 63) (hg : ∀ n, h.grant n = true) :
    ∃ s1, sstr_pad_right h s ch k = some (0, s1) ∧ s1.len = s.len + k ∧
      s1.data.length = s1.cap ∧ s.len + k + 1 ≤ s1.cap ∧
      content s1 = content s ++ List.replicate k ch ∧ s1.data[s1.len]? = some 0 := by
  have hsz : s.len + k < SIZE_MOD := by unfold SIZE_MOD; omega
  have hA : sz_add (sz_add s.len k) 1 = s.len + k + 1 := by
    rw [sz_add_eq s.len k hsz, sz_add_eq _ _ (by unfold SIZE_MOD; omega)]
  by_cases hgrow : s.cap < s.len + k + 1
  · obtain ⟨s1, hres, hl1, hd1, hc1, ht1⟩ := reserve_deficit h s k hdata hlen hsize hg hgrow
    obtain ⟨m2, hb, hl2, ht2, hz2⟩ := pad_right_body_spec s1 ch k s.len (by omega) hsz
    refine ⟨⟨s1.cap, s.len + k, m2⟩, ?_, rfl, by rw [hl2]; exact hd1, hc1, ?_, hz2⟩
    · unfold sstr_pad_right
      simp only [hA, if_pos hgrow, hres]
      simpa using hb
    · unfold content
      rw [ht2, ht1]
  · obtain ⟨m2, hb, hl2, ht2, hz2⟩ := pad_right_body_spec s ch k s.len (by omega) hsz
    refine ⟨⟨s.cap, s.len + k, m2⟩, ?_, rfl, by rw [hl2]; exact hdata,
      Nat.le_of_not_lt hgrow, ?_, hz2⟩
    · unfold sstr_pad_right
      simp only [hA, if_neg hgrow]
      exact hb
    · unfold content
      rw [ht2]

/-- The growth request of pad_center, n - len + n - cap + 1 in size words, added to the
capacity gives n - len + n + 1, whether or not the subtraction wraps. -/
theorem pad_center_request (cap len n : Nat) (hn : len ≤ n) (hsize : 2 * n + 1 ≤ 2 ^ 63)
    (hcond : cap < len + n) :
    sz_add cap (sz_add (sz_sub (sz_add (sz_sub n len) n) cap) 1) = n - len + n + 1 := by
  have h1 : sz_sub n len = n - len := sz_sub_eq _ _ hn (by unfold SIZE_MOD; omega)
  have h2 : sz_add (n - len) n = n - len + n := sz_add_eq _ _ (by unfold SIZE_MOD; omega)
  rw [h1, h2]
  by_cases hc : cap ≤ n - len + n
  · have h3 : sz_sub (n - len + n) cap = n - len + n - cap :=
      sz_sub_eq _ _ hc (by unfold SIZE_MOD; omega)
    rw [h3, sz_add_eq (n - len + n - cap) 1 (by unfold SIZE_MOD; omega),
      sz_add_eq _ _ (by unfold SIZE_MOD; omega)]
    omega
  · unfold sz_add sz_sub SIZE_MOD
    omega

/-- A buffer reallocated to p ≥ len payload bytes keeps length and content. -/
theorem grown_buffer (h : Heap) (s : Sstr) (p : Nat) (hlen : s.len ≤ s.data.length)
    (hp : s.len ≤ p) :
    ∃ s1, (⟨p, s.len, resize h s.data p⟩ : Sstr) = s1 ∧ s1.len = s.len ∧
      s1.data.length = s1.cap ∧ s1.len ≤ s1.cap ∧ content s1 = content s :=
  ⟨_, rfl, rfl, resize_length h s.data p, hp, resize_take h s.data p s.len hlen hp⟩

/-- The buffer that a reserve of a non-zero amount leaves. -/
theorem reserve_grow_snd (h : Heap) (s : Sstr) (additional t : Nat) (ha : additional ≠ 0)
    (ht : sz_add s.cap additional = t) (h1 : 1 ≤ t) (h2 : t ≤ 2 ^ 63)
    (hg : ∀ k, h.grant k = true) :
    (sstr_reserve h s additional).2 = ⟨pow2 t, s.len, resize h s.data (pow2 t)⟩ := by
  rw [reserve_grow h s additional t ha ht h1 h2 hg]

/-- The reserve at the start of pad_center, whatever amount it asks for, keeps length and
content and leaves a buffer whose allocation has cap payload bytes. -/
theorem pad_center_reserve (h : Heap) (s : Sstr) (n : Nat) (hdata : s.data.length = s.cap)
    (hlen : s.len ≤ s.cap) (hn : s.len ≤ n) (hsize : 2 * n + 1 ≤ 2 ^ 63)
    (hg : ∀ k, h.grant k = true) :
    ∃ s1, (if s.cap < sz_add s.len n then
        (sstr_reserve h s (sz_add (sz_sub (sz_add (sz_sub n s.len) n) s.cap) 1)).2
      else s) = s1 ∧ s1.len = s.len ∧ s1.data.length = s1.cap ∧ s1.len ≤ s1.cap ∧
      content s1 = content s := by
  have hadd : sz_add s.len n = s.len + n := sz_add_eq _ _ (by unfold SIZE_MOD; omega)
  by_cases hcond : s.cap < sz_add s.len n
  · rw [if_pos hcond]
    by_cases hA : sz_add (sz_sub (sz_add (sz_sub n s.len) n) s.cap) 1 = 0
    · refine ⟨s, ?_, rfl, hdata, hlen, rfl⟩
      rw [hA]
      unfold sstr_reserve
      rw [if_pos rfl]
    · have ht := pad_center_request s.cap s.len n hn hsize (by rw [← hadd]; exact hcond)
      obtain ⟨hp1, -⟩ := pow2_bounds (n - s.len + n + 1) (by omega) (by omega)
      rw [reserve_grow_snd h s _ _ hA ht (by omega) (by omega) hg]
      exact grown_buffer h s _ (by omega) (by omega)
  · rw [if_neg hcond]
    exact ⟨s, rfl, rfl, hdata, hlen, rfl⟩

/-- C12. For a buffer with content c of length L, a byte ch and a target n ≥ L,
pad_center returns 0 and leaves length n and the content left copies of ch, then c, then
right copies of ch, with right = (n - L) / 2 and left = (n - L) - right.  The allocation
has cap ≥ L payload bytes, 2n + 1 ≤ 2^63 and the allocator grants the requests. -/
theorem pad_center_spec (h : Heap) (s : Sstr) (ch : Int) (n : Nat)
    (hdata : s.data.length = s.cap) (hlen : s.len ≤ s.cap) (hn : s.len ≤ n)
    (hsize : 2 * n + 1 ≤ 2 ^ 63) (hg : ∀ k, h.grant k = true) :
    ∃ s1, sstr_pad_center h s ch n = some (0, s1) ∧ s1.len = n ∧
      content s1 = List.replicate ((n - s.len) - (n - s.len) / 2) ch ++ content s ++
        List.replicate ((n - s.len) / 2) ch := by
  by_cases heq : s.len = n
  · refine ⟨s, ?_, heq, ?_⟩
    · unfold sstr_pad_center
      rw [if_pos heq]
    · rw [heq, Nat.sub_self]
      simp
  · obtain ⟨s1, hs1, hl1, hd1, hle1, hc1⟩ := pad_center_reserve h s n hdata hlen hn hsize hg
    have hdiff : sz_sub n s.len = n - s.len := sz_sub_eq _ _ hn (by unfold SIZE_MOD; omega)
    have hleft : sz_sub (n - s.len) ((n - s.len) / 2) = n - s.len - (n - s.len) / 2 :=
      sz_sub_eq _ _ (Nat.div_le_self _ _) (by unfold SIZE_MOD; omega)
    obtain ⟨s2, hp2, hl2, hd2, hcap2, hc2⟩ := pad_left_spec h s1 ch
      (n - s.len - (n - s.len) / 2) hd1 (by omega) (by omega) hg
    obtain ⟨s3, hp3, hl3, -, -, hc3, -⟩ := pad_right_spec h s2 ch ((n - s.len) / 2) hd2
      (by omega) (by omega) hg
    refine ⟨s3, ?_, by omega, ?_⟩
    · rw [hdiff] at hs1
      unfold sstr_pad_center
      rw [if_neg heq]
      simp only [hdiff, hleft, hs1, hp2, hp3]
    · rw [hc3, hc2, hc1]

/-- C12 (witness). The buffer "hi" and the target 7: three bytes in front, two behind. -/
theorem pad_center_spec_witness :
    ∃ s1, sstr_pad_center heap_ok ⟨4, 2, [104, 105, 0, 0]⟩ 42 7 = some (0, s1) ∧ s1.len = 7 ∧
      content s1 = List.replicate ((7 - 2) - (7 - 2) / 2) 42 ++
        content ⟨4, 2, [104, 105, 0, 0]⟩ ++ List.replicate ((7 - 2) / 2) 42 :=
  pad_center_spec heap_ok ⟨4, 2, [104, 105, 0, 0]⟩ 42 7 (by decide) (by decide) (by decide)
    (by decide) (fun _ => rfl)

end Sstring
